import Mathlib

/-!
Shallow embedding of the dirstat core: the collector with its bounded
min-heap of top-N entries (stats.go), the finalizer, and the Run driver
(run.go), together with proofs of the specification claims.

Modelling conventions:
* Go int64 values (sizes, counters) are modelled as unbounded Int; no claim
  touches integer overflow.
* The POSIX build is modelled: the path separator is the slash, so
  filepath.ToSlash is the identity.
* External collaborators (os.Stat, the fastwalk traversal primitive and the
  regexp package) are abstracted into an environment record; the visit
  callback itself is translated from the source.  The progress reporter and
  the Elapsed field are wall-clock/concurrency features and are not part of
  the embedded state.
-/

set_option autoImplicit false

namespace Dirstat

/-- statistics for one category: ExtStat in stats.go. -/
structure ExtStat where
  count : Int
  size : Int
deriving Repr, DecidableEq

instance : Inhabited ExtStat := ⟨⟨0, 0⟩⟩

/-- a single path with its size: FileStat in stats.go. -/
structure FileStat where
  path : String
  size : Int
deriving Repr, DecidableEq

instance : Inhabited FileStat := ⟨⟨"", 0⟩⟩

/-- the immutable result snapshot: Stats in stats.go.  The Go map of
extension statistics is modelled as an association list with unique keys;
Elapsed (wall-clock time) is omitted. -/
structure Stats where
  fileCount : Int
  totalBytes : Int
  extStats : List (String × ExtStat)
  topFiles : List FileStat
  errorCount : Int
  directoryMode : Bool
  topN : Nat
deriving Repr, DecidableEq

/-! ### Go string and path helpers used by run.go and finalize -/

/-- strings.HasSuffix. -/
def goHasSuffix (s suf : String) : Bool :=
  suf.data.isSuffixOf s.data

/-- strings.TrimPrefix: removes one leading occurrence of the given
leading string when present (character-list form of the same test). -/
def goTrimLead (s lead : String) : String :=
  if lead.data.isPrefixOf s.data then ⟨s.data.drop lead.data.length⟩ else s

/-- filepath.ToSlash: the identity on a system whose separator is already
the forward slash. -/
def toSlash (s : String) : String := s

/-- the path normalization finalize applies to every returned path:
slash form, then a leading dot-slash removed. -/
def normalizePath (p : String) : String :=
  goTrimLead (toSlash p) "./"

/-- worker for goExt over the reversed character list of the path: the
first dot found before any separator wins; acc holds the characters
already passed, in original order. -/
def extRevAux : List Char → List Char → String
  | [], _ => ""
  | c :: rest, acc =>
    if c = '/' then ""
    else if c = '.' then ⟨c :: acc⟩
    else extRevAux rest (c :: acc)

/-- filepath.Ext: the suffix of the final path element starting at its
last dot, or empty when that element has no dot. -/
def goExt (p : String) : String :=
  extRevAux p.data.reverse []

/-- one element step of filepath.Clean: skip empty and dot elements, let
dot-dot pop the previous element (or survive when unrooted). -/
def cleanStep (rooted : Bool) (out : List String) (e : String) : List String :=
  if e = "" ∨ e = "." then out
  else if e = ".." then
    if out ≠ [] ∧ out.getLast? ≠ some ".." then out.dropLast
    else if rooted then out
    else out ++ [".."]
  else out ++ [e]

/-- filepath.Clean, POSIX lexical semantics. -/
def goClean (p : String) : String :=
  if p = "" then "."
  else
    let rooted := p.startsWith "/"
    let out := (p.splitOn "/").foldl (cleanStep rooted) []
    let s := String.intercalate "/" out
    let s := if rooted then "/" ++ s else s
    if s = "" then "." else s

/-- filepath.Dir: everything up to and including the last separator,
cleaned; dot when there is no separator. -/
def goDir (p : String) : String :=
  let cs := p.data
  let keep := cs.length - (cs.reverse.takeWhile (fun c => c ≠ '/')).length
  goClean ⟨cs.take keep⟩

/-- whether a character belongs to the quote cutset of strings.Trim in
the extension setup (single quote, codepoint 39, or double quote,
codepoint 34). -/
def isQuoteChar (c : Char) : Bool :=
  c.toNat = 39 ∨ c.toNat = 34

/-- strings.Trim with the quote cutset. -/
def goTrimQuotes (s : String) : String :=
  ⟨((s.data.dropWhile isQuoteChar).reverse.dropWhile isQuoteChar).reverse⟩

/-- calculateDepth: path depth relative to the root, counted in
separators of the root-relative remainder. -/
def calculateDepth (path root : String) : Nat :=
  let rel := goTrimLead (goTrimLead path root) "/"
  if rel = "" then 0 else rel.data.count '/' + 1

/-! ### The bounded min-heap (topHeap in stats.go plus container/heap) -/

/-- element read with the zero value as default; the reachable states
never read out of range, mirroring Go slice indexing. -/
def lget (h : List FileStat) (i : Nat) : FileStat :=
  h.getD i default

/-- topHeap.Swap. -/
def lswap (h : List FileStat) (i j : Nat) : List FileStat :=
  (h.set i (lget h j)).set j (lget h i)

/-- the comparison key used by topHeap.Less. -/
def keyAt (h : List FileStat) (i : Nat) : Int :=
  (lget h i).size

/-- container/heap sift-up, with structural fuel: the hole index strictly
decreases each round, so fuel j + 1 is never exhausted. -/
def upAux : Nat → List FileStat → Nat → List FileStat
  | 0, h, _ => h
  | fuel + 1, h, j =>
    if j = 0 then h
    else if keyAt h j < keyAt h ((j - 1) / 2) then
      upAux fuel (lswap h ((j - 1) / 2) j) ((j - 1) / 2)
    else h

/-- container/heap sift-up. -/
def up (h : List FileStat) (j : Nat) : List FileStat :=
  upAux (j + 1) h j

/-- the child index sift-down descends to: the smaller of the two
children inside the window. -/
def downChild (h : List FileStat) (i n : Nat) : Nat :=
  if 2 * i + 2 < n ∧ keyAt h (2 * i + 2) < keyAt h (2 * i + 1) then 2 * i + 2
  else 2 * i + 1

/-- container/heap sift-down inside the window of the first n entries,
with structural fuel: the hole index strictly increases and stays below
the window bound, so fuel n is never exhausted. -/
def downAux : Nat → List FileStat → Nat → Nat → List FileStat
  | 0, h, _, _ => h
  | fuel + 1, h, i, n =>
    if 2 * i + 1 < n then
      if keyAt h (downChild h i n) < keyAt h i then
        downAux fuel (lswap h i (downChild h i n)) (downChild h i n) n
      else h
    else h

/-- container/heap sift-down. -/
def down (h : List FileStat) (i n : Nat) : List FileStat :=
  downAux n h i n

/-- heap.Push on topHeap: append, then sift up from the last position. -/
def heapPush (h : List FileStat) (x : FileStat) : List FileStat :=
  up (h ++ [x]) h.length

/-- heap.Pop on topHeap: swap the root to the end, sift the window down,
then remove and return the last element. -/
def heapPop (h : List FileStat) : FileStat × List FileStat :=
  match h with
  | [] => (default, [])
  | _ :: _ =>
    let n := h.length - 1
    let h2 := down (lswap h 0 n) 0 n
    (lget h2 n, h2.take n)

/-- the top-N update performed by add: push unconditionally below
capacity, otherwise evict the root only for a strictly larger size. -/
def boundedInsert (topn : Nat) (h : List FileStat) (x : FileStat) : List FileStat :=
  if h.length < topn then heapPush h x
  else if x.size > keyAt h 0 then heapPush (heapPop h).2 x
  else h

/-! ### The collector (stats.go) -/

/-- the Go map read: zero value for an absent key. -/
def mapGet (m : List (String × ExtStat)) (k : String) : ExtStat :=
  match m.find? (fun kv => kv.1 == k) with
  | some kv => kv.2
  | none => default

/-- the Go map write: replace the entry when the key is present, append
it otherwise (insertion order models one map iteration order). -/
def mapSet (m : List (String × ExtStat)) (k : String) (v : ExtStat) : List (String × ExtStat) :=
  if m.any (fun kv => kv.1 == k) then
    m.map (fun kv => if kv.1 == k then (k, v) else kv)
  else m ++ [(k, v)]

/-- the lock-protected aggregate of stats.go.  The mutex serializes every
update, so the concurrent collector is modelled by its sequential state. -/
structure Collector where
  topN : Nat
  directoryMode : Bool
  extStats : List (String × ExtStat)
  topFiles : List FileStat
  fileCount : Int
  totalBytes : Int
  errorCount : Int
deriving Repr, DecidableEq

/-- newCollector. -/
def newCollector (topN : Nat) (directoryMode : Bool) : Collector :=
  { topN := topN
    directoryMode := directoryMode
    extStats := []
    topFiles := []
    fileCount := 0
    totalBytes := 0
    errorCount := 0 }

/-- collector.addError. -/
def Collector.addError (c : Collector) : Collector :=
  { c with errorCount := c.errorCount + 1 }

/-- collector.add: the sentinel category flags a directory-mode record,
anything else is a file record feeding the bounded top-N heap. -/
def Collector.add (c : Collector) (path : String) (size : Int) (ext : String) : Collector :=
  let c1 : Collector := { c with totalBytes := c.totalBytes + size }
  if ext = "DIR:" then
    let stat := mapGet c1.extStats path
    let c2 : Collector :=
      if stat.count = 0 then { c1 with fileCount := c1.fileCount + 1 } else c1
    { c2 with extStats := mapSet c2.extStats path ⟨stat.count + 1, stat.size + size⟩ }
  else
    let stat := mapGet c1.extStats ext
    { c1 with
      fileCount := c1.fileCount + 1
      extStats := mapSet c1.extStats ext ⟨stat.count + 1, stat.size + size⟩
      topFiles := boundedInsert c1.topN c1.topFiles ⟨path, size⟩ }

/-- worker for drain with structural fuel: each pop removes exactly one
element, so fuel h.length is never exhausted. -/
def drainAux : Nat → List FileStat → List FileStat
  | 0, _ => []
  | fuel + 1, h =>
    match h with
    | [] => []
    | _ :: _ => (heapPop h).1 :: drainAux fuel (heapPop h).2

/-- repeatedly popping the heap, exactly as both finalize loops fill the
output slice front to back. -/
def drain (h : List FileStat) : List FileStat :=
  drainAux h.length h

/-- the drained top list with every path display-normalized. -/
def finalizeTop (h : List FileStat) : List FileStat :=
  (drain h).map (fun f => { f with path := normalizePath f.path })

/-- collector.finalize. -/
def Collector.finalize (c : Collector) : Stats :=
  if c.directoryMode then
    let dirHeap := c.extStats.foldl (fun h kv => boundedInsert c.topN h ⟨kv.1, kv.2.size⟩) []
    { fileCount := (c.extStats.length : Int)
      totalBytes := c.totalBytes
      extStats := []
      topFiles := finalizeTop dirHeap
      errorCount := c.errorCount
      directoryMode := c.directoryMode
      topN := c.topN }
  else
    { fileCount := c.fileCount
      totalBytes := c.totalBytes
      extStats := c.extStats
      topFiles := finalizeTop c.topFiles
      errorCount := c.errorCount
      directoryMode := c.directoryMode
      topN := c.topN }

/-- one recorded add call, for reasoning about admitted-entry sequences. -/
structure AddCall where
  path : String
  size : Int
  ext : String
deriving Repr, DecidableEq

/-- the heap entry an add call contributes in file mode. -/
def toFS (a : AddCall) : FileStat :=
  ⟨a.path, a.size⟩

/-- replaying a sequence of admitted entries against a collector. -/
def applyAdds (c : Collector) (calls : List AddCall) : Collector :=
  calls.foldl (fun st a => st.add a.path a.size a.ext) c

/-! ### The Run driver (run.go), with the OS and fastwalk abstracted -/

/-- a compiled exclusion pattern: regexp.Compile succeeds exactly when
valid holds, and the match function abstracts regexp matching. -/
structure Pattern where
  valid : Bool
  isMatch : String → Bool

/-- the validated subset of Options (stats.go) that the Run driver reads;
ProgressInterval/Debug/Output only affect reporting, not the result. -/
structure Options where
  path : String
  extensions : List String
  excludes : List Pattern
  minSize : Int
  topN : Int
  depth : Int
  dirsMode : Bool

/-- one entry as fastwalk presents it to the visit callback. -/
structure WalkEntry where
  path : String
  isDir : Bool
  isRegular : Bool
  accessErr : Bool
  ctxDone : Bool
  infoErr : Bool
  size : Int

/-- the abstract environment: os.Stat on a path (none = stat failure,
some b = exists with IsDir b) and the entry sequence fastwalk visits
from a given root. -/
structure Env where
  stat : String → Option Bool
  entries : String → List WalkEntry

/-- the error cases Run can surface. -/
inductive RunError
  | pathAccess
  | notDirectory
  | badPattern
  | canceled
deriving Repr, DecidableEq

/-- what the visit callback returns: nil, filepath.SkipDir, or
context.Canceled. -/
inductive CbOut
  | next
  | skipDir
  | canceled
deriving Repr, DecidableEq

/-- the extension-set setup loop of Run: strip quotes, route
bang-led entries to the exclude set and the rest to the include set. -/
def parseExtensions (exts : List String) : List String × List String :=
  exts.foldl
    (fun acc e =>
      let e := goTrimQuotes e
      if e.startsWith "!" then (acc.1, acc.2 ++ [goTrimLead e "!"])
      else (acc.1 ++ [e], acc.2))
    ([], [])

/-- shouldIncludeByExtension: excludes first, then the include set with
an empty include set admitting everything. -/
def shouldIncludeByExtension (path : String) (incl excl : List String) : Bool :=
  if excl.any (fun ext => goHasSuffix path ext) then false
  else if incl.isEmpty then true
  else incl.any (fun ext => goHasSuffix path ext)

/-- the inline extension filter of run.go: include check first (skip when
a nonempty include set has no match), then the exclude check. -/
def runGoExtAdmit (path : String) (incl excl : List String) : Bool :=
  if incl ≠ [] ∧ ¬ incl.any (fun ext => goHasSuffix path ext) then false
  else if excl.any (fun ext => goHasSuffix path ext) then false
  else true

/-- the static inputs of the visit callback. -/
structure WalkParams where
  root : String
  depth : Int
  minSize : Int
  dirsMode : Bool
  excludeRegexes : List Pattern
  extInclude : List String
  extExclude : List String

/-- the fastwalk visit callback of Run, translated branch by branch. -/
def walkCallback (ps : WalkParams) (c : Collector) (e : WalkEntry) : CbOut × Collector :=
  if e.accessErr then (.next, c)
  else if e.ctxDone then (.canceled, c)
  else if ps.depth > 0 ∧ (calculateDepth e.path ps.root : Int) > ps.depth then
    (if e.isDir then .skipDir else .next, c)
  else if ps.excludeRegexes.any (fun re => re.isMatch (toSlash e.path)) then
    (if e.isDir then .skipDir else .next, c)
  else if e.isDir then (.next, c)
  else if ¬ e.isRegular then (.next, c)
  else if e.infoErr then (.next, c.addError)
  else if e.size < ps.minSize then (.next, c)
  else if ¬ runGoExtAdmit e.path ps.extInclude ps.extExclude then (.next, c)
  else if ps.dirsMode then
    let dirPath := goDir e.path
    let relDir := goTrimLead (goTrimLead dirPath ps.root) "/"
    let relDir := if relDir = "" then "." else relDir
    (.next, c.add relDir e.size "DIR:")
  else
    (.next, c.add e.path e.size (goExt e.path))

/-- the walk loop: fastwalk aborts with the callback error on
cancellation; SkipDir prunes a subtree, which the abstract entry list
already accounts for, so it continues here. -/
def walkFold (ps : WalkParams) : Collector → List WalkEntry → Except RunError Collector
  | c, [] => .ok c
  | c, e :: rest =>
    match walkCallback ps c e with
    | (.canceled, _) => .error .canceled
    | (_, c2) => walkFold ps c2 rest

/-- Run normalizes a nonpositive requested top-N to 20 before building
the collector. -/
def effTopN (t : Int) : Nat :=
  if t ≤ 0 then 20 else t.toNat

/-- the cleaned root Run works with: an empty path becomes the current
directory before filepath.Clean. -/
def runRoot (opt : Options) : String :=
  goClean (if opt.path = "" then "." else opt.path)

/-- Run: validate the root, build the filter sets and the collector,
compile the exclusion patterns, walk, finalize. -/
def runModel (opt : Options) (env : Env) : Except RunError Stats :=
  let path := runRoot opt
  match env.stat path with
  | none => .error .pathAccess
  | some isDir =>
    if ¬ isDir then .error .notDirectory
    else
      let sets := parseExtensions opt.extensions
      let topn := effTopN opt.topN
      let c0 := newCollector topn opt.dirsMode
      if opt.excludes.any (fun p => ¬ p.valid) then .error .badPattern
      else
        let ps : WalkParams :=
          { root := path
            depth := opt.depth
            minSize := opt.minSize
            dirsMode := opt.dirsMode
            excludeRegexes := opt.excludes
            extInclude := sets.1
            extExclude := sets.2 }
        match walkFold ps c0 (env.entries path) with
        | .error err => .error err
        | .ok c => .ok c.finalize

/-- whether the walk observes cancellation at some visited entry (the
cancellation check follows the silent access-error skip). -/
def cancelObserved : List WalkEntry → Bool
  | [] => false
  | e :: rest => (!e.accessErr && e.ctxDone) || cancelObserved rest

/-! ### Indexed-list helper lemmas -/

lemma lget_cons_succ (a : FileStat) (t : List FileStat) (i : Nat) :
    lget (a :: t) (i + 1) = lget t i := by
  simp [lget]

lemma lget_cons_zero (a : FileStat) (t : List FileStat) :
    lget (a :: t) 0 = a := rfl

lemma lget_set_self : ∀ (l : List FileStat) (i : Nat) (x : FileStat),
    i < l.length → lget (l.set i x) i = x
  | _ :: _, 0, _, _ => rfl
  | a :: t, i + 1, x, h => by
    have := lget_set_self t i x (by simpa using h)
    simpa [lget] using this
  | [], i, x, h => absurd h (by simp)

lemma lget_set_of_ne : ∀ (l : List FileStat) (i k : Nat) (x : FileStat),
    k ≠ i → lget (l.set i x) k = lget l k
  | [], _, _, _, _ => by simp
  | a :: t, 0, 0, x, hk => absurd rfl hk
  | a :: t, 0, k + 1, x, _ => by simp [lget]
  | a :: t, i + 1, 0, x, _ => rfl
  | a :: t, i + 1, k + 1, x, hk => by
    have := lget_set_of_ne t i k x (by omega)
    simpa [lget] using this

lemma length_lswap (l : List FileStat) (i j : Nat) :
    (lswap l i j).length = l.length := by
  simp [lswap]

lemma lget_lswap (l : List FileStat) (i j k : Nat) (hi : i < l.length)
    (hj : j < l.length) :
    lget (lswap l i j) k =
      if k = j then lget l i else if k = i then lget l j else lget l k := by
  unfold lswap
  by_cases hkj : k = j
  · subst hkj
    rw [lget_set_self _ _ _ (by simpa [List.length_set] using hj), if_pos rfl]
  · rw [lget_set_of_ne _ _ _ _ hkj, if_neg hkj]
    by_cases hki : k = i
    · subst hki; rw [lget_set_self _ _ _ hi, if_pos rfl]
    · rw [lget_set_of_ne _ _ _ _ hki, if_neg hki]

lemma keyAt_lswap (l : List FileStat) (i j k : Nat) (hi : i < l.length)
    (hj : j < l.length) :
    keyAt (lswap l i j) k =
      if k = j then keyAt l i else if k = i then keyAt l j else keyAt l k := by
  simp only [keyAt, lget_lswap l i j k hi hj]
  split
  · rfl
  · split <;> rfl

lemma count_set : ∀ (l : List FileStat) (i : Nat) (x : FileStat), i < l.length →
    ∀ y : FileStat, (l.set i x).count y + (if lget l i = y then 1 else 0)
      = l.count y + (if x = y then 1 else 0)
  | [], i, x, h, y => absurd h (by simp)
  | a :: t, 0, x, _, y => by
    by_cases h1 : a = y <;> by_cases h2 : x = y <;>
      simp [List.count_cons, h1, h2, lget_cons_zero]
  | a :: t, i + 1, x, h, y => by
    have ih := count_set t i x (by simpa using h) y
    by_cases h1 : a = y <;>
      simp only [List.set_cons_succ, List.count_cons, lget_cons_succ, h1] <;>
      simp [h1] <;> omega

lemma lswap_perm (l : List FileStat) (i j : Nat) (hi : i < l.length)
    (hj : j < l.length) : List.Perm (lswap l i j) l := by
  rw [List.perm_iff_count]
  intro y
  have h1 := count_set (l.set i (lget l j)) j (lget l i)
    (by simpa [List.length_set] using hj) y
  have h2 := count_set l i (lget l j) hi y
  have h3 : lget (l.set i (lget l j)) j = lget l j := by
    by_cases hij : j = i
    · subst hij; exact lget_set_self l j _ hj
    · exact lget_set_of_ne l i j _ hij
  rw [h3] at h1
  unfold lswap
  omega

/-! ### Recurrence equations for the fuelled sift loops -/

lemma upAux_congr : ∀ (f1 f2 : Nat) (h : List FileStat) (j : Nat),
    j < f1 → j < f2 → upAux f1 h j = upAux f2 h j
  | 0, _, _, _, hf1, _ => absurd hf1 (by omega)
  | _ + 1, 0, _, _, _, hf2 => absurd hf2 (by omega)
  | f1 + 1, f2 + 1, h, j, hf1, hf2 => by
    simp only [upAux]
    by_cases h0 : j = 0
    · rw [if_pos h0, if_pos h0]
    · rw [if_neg h0, if_neg h0]
      by_cases hk : keyAt h j < keyAt h ((j - 1) / 2)
      · rw [if_pos hk, if_pos hk]
        exact upAux_congr f1 f2 _ _ (by omega) (by omega)
      · rw [if_neg hk, if_neg hk]

lemma up_eq (h : List FileStat) (j : Nat) :
    up h j =
      if j = 0 then h
      else if keyAt h j < keyAt h ((j - 1) / 2) then
        up (lswap h ((j - 1) / 2) j) ((j - 1) / 2)
      else h := by
  show upAux (j + 1) h j = _
  simp only [upAux]
  by_cases h0 : j = 0
  · rw [if_pos h0, if_pos h0]
  · rw [if_neg h0, if_neg h0]
    by_cases hk : keyAt h j < keyAt h ((j - 1) / 2)
    · rw [if_pos hk, if_pos hk]
      exact upAux_congr j ((j - 1) / 2 + 1) _ _ (by omega) (by omega)
    · rw [if_neg hk, if_neg hk]

lemma downChild_ge (h : List FileStat) (i n : Nat) :
    2 * i + 1 ≤ downChild h i n := by
  unfold downChild
  split <;> omega

lemma downAux_congr : ∀ (f1 f2 : Nat) (h : List FileStat) (i n : Nat),
    n - i ≤ f1 → n - i ≤ f2 → downAux f1 h i n = downAux f2 h i n
  | 0, 0, _, _, _, _, _ => rfl
  | 0, f2 + 1, h, i, n, hf1, _ => by
    simp only [downAux]
    rw [if_neg (by omega)]
  | f1 + 1, 0, h, i, n, _, hf2 => by
    simp only [downAux]
    rw [if_neg (by omega)]
  | f1 + 1, f2 + 1, h, i, n, hf1, hf2 => by
    simp only [downAux]
    by_cases h1 : 2 * i + 1 < n
    · rw [if_pos h1, if_pos h1]
      by_cases h2 : keyAt h (downChild h i n) < keyAt h i
      · rw [if_pos h2, if_pos h2]
        have hge := downChild_ge h i n
        exact downAux_congr f1 f2 _ _ _ (by omega) (by omega)
      · rw [if_neg h2, if_neg h2]
    · rw [if_neg h1, if_neg h1]

lemma down_eq (h : List FileStat) (i n : Nat) :
    down h i n =
      if 2 * i + 1 < n then
        (if keyAt h (downChild h i n) < keyAt h i then
          down (lswap h i (downChild h i n)) (downChild h i n) n
        else h)
      else h := by
  show downAux n h i n = _
  cases n with
  | zero =>
    simp only [downAux]
    rw [if_neg (by omega)]
  | succ m =>
    simp only [downAux]
    by_cases h1 : 2 * i + 1 < m + 1
    · rw [if_pos h1, if_pos h1]
      by_cases h2 : keyAt h (downChild h i (m + 1)) < keyAt h i
      · rw [if_pos h2, if_pos h2]
        have hge := downChild_ge h i (m + 1)
        exact downAux_congr m (m + 1) _ _ _ (by omega) (by omega)
      · rw [if_neg h2, if_neg h2]
    · rw [if_neg h1, if_neg h1]

/-! ### Heap invariant and sift correctness -/

/-- the binary min-heap shape maintained by container/heap: each parent
key is at most each child key. -/
def IsHeap (h : List FileStat) : Prop :=
  ∀ c, 0 < c → c < h.length → keyAt h ((c - 1) / 2) ≤ keyAt h c

lemma isHeap_nil : IsHeap [] := by
  intro c _ hc
  simp at hc

lemma isHeap_singleton (x : FileStat) : IsHeap [x] := by
  intro c hc hlen
  simp at hlen
  omega

lemma up_length (h : List FileStat) (j : Nat) : (up h j).length = h.length := by
  induction j using Nat.strong_induction_on generalizing h with
  | _ j ih =>
    rw [up_eq]
    split
    next => rfl
    next h0 =>
      split
      next => rw [ih _ (by omega), length_lswap]
      next => rfl

lemma up_perm (h : List FileStat) (j : Nat) (hj : j < h.length) :
    List.Perm (up h j) h := by
  induction j using Nat.strong_induction_on generalizing h with
  | _ j ih =>
    rw [up_eq]
    split
    next => exact .refl _
    next h0 =>
      split
      next =>
        refine (ih _ (by omega) _ ?_).trans (lswap_perm _ _ _ (by omega) hj)
        rw [length_lswap]; omega
      next => exact .refl _

lemma up_restores (h : List FileStat) (j : Nat) (hj : j < h.length)
    (h1 : ∀ c, 0 < c → c < h.length → c ≠ j → keyAt h ((c - 1) / 2) ≤ keyAt h c)
    (h2 : ∀ c, 0 < c → c < h.length → (c - 1) / 2 = j → 0 < j →
      keyAt h ((j - 1) / 2) ≤ keyAt h c) :
    IsHeap (up h j) := by
  induction j using Nat.strong_induction_on generalizing h with
  | _ j ih =>
    rw [up_eq]
    split
    next h0 =>
      subst h0
      intro c hc hlen
      exact h1 c hc hlen (by omega)
    next h0 =>
      split
      next hk =>
        have hij : (j - 1) / 2 < j := by omega
        have hil : (j - 1) / 2 < h.length := by omega
        apply ih _ hij
        · rw [length_lswap]; exact hil
        · -- heap shape away from the new hole
          intro c hc hcl hci
          rw [length_lswap] at hcl
          have hpl : (c - 1) / 2 < h.length := by
            have : (c - 1) / 2 < c := by omega
            omega
          rw [keyAt_lswap _ _ _ _ hil hj, keyAt_lswap _ _ _ _ hil hj]
          by_cases hcj : c = j
          · rw [hcj]
            rw [if_neg (show ¬ (j - 1) / 2 = j by omega)]
            rw [if_pos (rfl : (j - 1) / 2 = (j - 1) / 2)]
            rw [if_pos (rfl : j = j)]
            exact le_of_lt hk
          · rw [if_neg hcj, if_neg hci]
            by_cases hpi : (c - 1) / 2 = (j - 1) / 2
            · -- c is the sibling of j: chain through the old parent
              rw [if_neg (by omega), if_pos hpi]
              exact le_trans (le_of_lt hk) (by simpa [hpi] using h1 c hc hcl hcj)
            · by_cases hpj : (c - 1) / 2 = j
              · -- c is a child of j: the grandparent bound
                rw [if_pos hpj]
                exact h2 c hc hcl hpj (by omega)
              · rw [if_neg hpj, if_neg hpi]
                exact h1 c hc hcl hcj
        · -- grandparent bound at the new hole
          intro c hc hcl hpc hi0
          rw [length_lswap] at hcl
          have hgi : ((j - 1) / 2 - 1) / 2 < (j - 1) / 2 := by omega
          rw [keyAt_lswap _ _ _ _ hil hj, keyAt_lswap _ _ _ _ hil hj]
          have hcge : (j - 1) / 2 < c := by omega
          rw [if_neg (by omega), if_neg (by omega)]
          have hbase := h1 ((j - 1) / 2) hi0 hil (by omega)
          by_cases hcj : c = j
          · subst hcj
            rw [if_pos rfl]
            exact hbase
          · rw [if_neg hcj, if_neg (by omega)]
            exact le_trans hbase (by simpa [hpc] using h1 c hc hcl hcj)
      next hk =>
        intro c hc hlen
        by_cases hcj : c = j
        · subst hcj
          exact le_of_not_lt hk
        · exact h1 c hc hlen hcj

lemma lget_append_lt (l l2 : List FileStat) (k : Nat) (hk : k < l.length) :
    lget (l ++ l2) k = lget l k := by
  simp [lget, List.getElem?_append_left hk]

lemma keyAt_append_lt (l l2 : List FileStat) (k : Nat) (hk : k < l.length) :
    keyAt (l ++ l2) k = keyAt l k := by
  simp [keyAt, lget_append_lt _ _ _ hk]

lemma heapPush_isHeap (h : List FileStat) (x : FileStat) (hh : IsHeap h) :
    IsHeap (heapPush h x) := by
  unfold heapPush
  apply up_restores
  · simp
  · intro c hc hcl hcj
    simp only [List.length_append, List.length_cons, List.length_nil] at hcl
    have hcl2 : c < h.length := by omega
    have hpl : (c - 1) / 2 < h.length := by
      have : (c - 1) / 2 < c := by omega
      omega
    rw [keyAt_append_lt _ _ _ hcl2, keyAt_append_lt _ _ _ hpl]
    exact hh c hc hcl2
  · intro c hc hcl hpc hj0
    exfalso
    simp only [List.length_append, List.length_cons, List.length_nil] at hcl
    omega

lemma heapPush_length (h : List FileStat) (x : FileStat) :
    (heapPush h x).length = h.length + 1 := by
  unfold heapPush
  rw [up_length]
  simp

lemma heapPush_perm (h : List FileStat) (x : FileStat) :
    List.Perm (heapPush h x) (x :: h) := by
  unfold heapPush
  exact (up_perm _ _ (by simp)).trans (List.perm_append_singleton x h)

lemma downChild_lt (h : List FileStat) (i n : Nat) (hn : 2 * i + 1 < n) :
    downChild h i n < n := by
  unfold downChild; split <;> omega

lemma downChild_cases (h : List FileStat) (i n : Nat) :
    downChild h i n = 2 * i + 1 ∨ downChild h i n = 2 * i + 2 := by
  unfold downChild; split
  · exact Or.inr rfl
  · exact Or.inl rfl

lemma downChild_min (h : List FileStat) (i n s : Nat)
    (hs : s = 2 * i + 1 ∨ s = 2 * i + 2) (hsn : s < n) :
    keyAt h (downChild h i n) ≤ keyAt h s := by
  unfold downChild
  split
  next hc =>
    rcases hs with h1 | h2
    · rw [h1]; exact le_of_lt hc.2
    · rw [h2]
  next hc =>
    rcases hs with h1 | h2
    · rw [h1]
    · rw [h2]
      rw [h2] at hsn
      exact le_of_not_lt (not_and.mp hc hsn)

lemma down_length (h : List FileStat) (i n : Nat) :
    (down h i n).length = h.length := by
  suffices key : ∀ (m : Nat) (g : List FileStat) (i : Nat), n - i ≤ m →
      (down g i n).length = g.length from key (n - i) h i le_rfl
  intro m
  induction m with
  | zero =>
    intro g i hm
    rw [down_eq, if_neg (by omega)]
  | succ m ih =>
    intro g i hm
    rw [down_eq]
    split
    next h1 =>
      split
      next h2 =>
        rw [ih _ _ (by have := downChild_ge g i n; omega), length_lswap]
      next => rfl
    next => rfl

lemma down_perm (h : List FileStat) (i n : Nat) :
    n ≤ h.length → List.Perm (down h i n) h := by
  suffices key : ∀ (m : Nat) (g : List FileStat) (i : Nat), n - i ≤ m → n ≤ g.length →
      List.Perm (down g i n) g from fun hn => key (n - i) h i le_rfl hn
  intro m
  induction m with
  | zero =>
    intro g i hm hn
    rw [down_eq, if_neg (by omega)]
  | succ m ih =>
    intro g i hm hn
    rw [down_eq]
    split
    next h1 =>
      split
      next h2 =>
        have hge := downChild_ge g i n
        have hlt := downChild_lt g i n h1
        refine (ih _ _ (by omega) (by rw [length_lswap]; exact hn)).trans
          (lswap_perm _ _ _ (by omega) (by omega))
      next => exact .refl _
    next => exact .refl _

lemma down_untouched (h : List FileStat) (i n : Nat) :
    n ≤ h.length → ∀ k, n ≤ k → lget (down h i n) k = lget h k := by
  suffices key : ∀ (m : Nat) (g : List FileStat) (i : Nat), n - i ≤ m → n ≤ g.length →
      ∀ k, n ≤ k → lget (down g i n) k = lget g k from fun hn => key (n - i) h i le_rfl hn
  intro m
  induction m with
  | zero =>
    intro g i hm hn k hk
    rw [down_eq, if_neg (by omega)]
  | succ m ih =>
    intro g i hm hn k hk
    rw [down_eq]
    split
    next h1 =>
      split
      next h2 =>
        have hge := downChild_ge g i n
        have hlt := downChild_lt g i n h1
        rw [ih _ _ (by omega) (by rw [length_lswap]; exact hn) k hk]
        rw [lget_lswap _ _ _ _ (by omega) (by omega)]
        rw [if_neg (by omega), if_neg (by omega)]
      next => rfl
    next => rfl

lemma down_restores (h : List FileStat) (i n : Nat) :
    n ≤ h.length →
    (∀ c, 0 < c → c < n → (c - 1) / 2 ≠ i → keyAt h ((c - 1) / 2) ≤ keyAt h c) →
    (∀ c, 0 < c → c < n → (c - 1) / 2 = i → 0 < i →
      keyAt h ((i - 1) / 2) ≤ keyAt h c) →
    ∀ c, 0 < c → c < n →
      keyAt (down h i n) ((c - 1) / 2) ≤ keyAt (down h i n) c := by
  suffices key : ∀ (m : Nat) (g : List FileStat) (i : Nat), n - i ≤ m → n ≤ g.length →
      (∀ c, 0 < c → c < n → (c - 1) / 2 ≠ i → keyAt g ((c - 1) / 2) ≤ keyAt g c) →
      (∀ c, 0 < c → c < n → (c - 1) / 2 = i → 0 < i →
        keyAt g ((i - 1) / 2) ≤ keyAt g c) →
      ∀ c, 0 < c → c < n →
        keyAt (down g i n) ((c - 1) / 2) ≤ keyAt (down g i n) c from
    fun hn hA hB => key (n - i) h i le_rfl hn hA hB
  intro m
  induction m with
  | zero =>
    intro g i hm hn hA hB c hc hcn
    rw [down_eq, if_neg (by omega)]
    by_cases hpi : (c - 1) / 2 = i
    · exfalso; omega
    · exact hA c hc hcn hpi
  | succ m ih =>
    intro g i hm hn hA hB
    rw [down_eq]
    split
    next h1 =>
      split
      next h2 =>
        have hjc := downChild_cases g i n
        have hjn := downChild_lt g i n h1
        have hil : i < g.length := by omega
        have hjl : downChild g i n < g.length := by omega
        have hij : i < downChild g i n := by omega
        refine ih _ _ (by omega) (by rw [length_lswap]; exact hn) ?_ ?_
        · -- heap shape away from the new hole at the chosen child
          intro c hc hcn hpj
          have hpc : (c - 1) / 2 < c := by omega
          rw [keyAt_lswap _ _ _ _ hil hjl, keyAt_lswap _ _ _ _ hil hjl]
          by_cases hcj : c = downChild g i n
          · -- the swapped edge itself
            have hpi2 : (downChild g i n - 1) / 2 = i := by omega
            rw [hcj, if_pos rfl, if_neg (by omega), if_pos hpi2]
            exact le_of_lt h2
          · by_cases hci : c = i
            · -- edge from the grandparent into the old hole
              have hi0 : 0 < i := by omega
              rw [hci, if_neg (by omega), if_neg (by omega), if_neg (by omega),
                if_pos rfl]
              exact hB (downChild g i n) (by omega) hjn (by omega) hi0
            · rw [if_neg hcj, if_neg hci]
              by_cases hpi : (c - 1) / 2 = i
              · -- c is the sibling of the chosen child
                rw [if_neg (by omega), if_pos hpi]
                exact downChild_min g i n c (by omega) hcn
              · rw [if_neg hpj, if_neg hpi]
                exact hA c hc hcn hpi
        · -- grandparent bound at the new hole
          intro c hc hcn hpc hj0
          have hji : (downChild g i n - 1) / 2 = i := by omega
          have hcgt : downChild g i n < c := by omega
          rw [keyAt_lswap _ _ _ _ hil hjl, keyAt_lswap _ _ _ _ hil hjl]
          rw [hji, if_neg (by omega), if_pos rfl, if_neg (by omega), if_neg (by omega)]
          have hAc := hA c hc hcn (by omega)
          rw [hpc] at hAc
          exact hAc
      next h2 =>
        intro c hc hcn
        by_cases hpi : (c - 1) / 2 = i
        · have hcs : c = 2 * i + 1 ∨ c = 2 * i + 2 := by omega
          rw [hpi]
          exact le_trans (le_of_not_lt h2) (downChild_min g i n c hcs hcn)
        · exact hA c hc hcn hpi
    next h1 =>
      intro c hc hcn
      by_cases hpi : (c - 1) / 2 = i
      · exfalso; omega
      · exact hA c hc hcn hpi

/-! ### heapPop correctness -/

lemma lget_take (l : List FileStat) (n k : Nat) (hk : k < n) :
    lget (l.take n) k = lget l k := by
  simp [lget, List.getElem?_take, hk]

lemma lget_eq_getElem (l : List FileStat) (k : Nat) (hk : k < l.length) :
    lget l k = l[k] := by
  simp [lget, List.getElem?_eq_getElem hk]

lemma lget_mem (l : List FileStat) (k : Nat) (hk : k < l.length) :
    lget l k ∈ l := by
  rw [lget_eq_getElem l k hk]
  exact List.getElem_mem hk

lemma drop_last_singleton (l : List FileStat) (n : Nat) (hl : l.length = n + 1) :
    l.drop n = [lget l n] := by
  have hn : n < l.length := by omega
  rw [List.drop_eq_getElem_cons hn, lget_eq_getElem l n hn]
  have : l.drop (n + 1) = [] := by
    apply List.drop_eq_nil_of_le
    omega
  rw [this]

lemma heapPop_eq (h : List FileStat) (hne : h ≠ []) :
    heapPop h =
      (lget (down (lswap h 0 (h.length - 1)) 0 (h.length - 1)) (h.length - 1),
       (down (lswap h 0 (h.length - 1)) 0 (h.length - 1)).take (h.length - 1)) := by
  cases h with
  | nil => exact absurd rfl hne
  | cons a t => rfl

lemma heapPop_fst (h : List FileStat) (hne : h ≠ []) :
    (heapPop h).1 = lget h 0 := by
  have hlen1 : 0 < h.length := List.length_pos.mpr hne
  rw [heapPop_eq h hne]
  show lget (down (lswap h 0 (h.length - 1)) 0 (h.length - 1)) (h.length - 1) = lget h 0
  have hlen : h.length - 1 ≤ (lswap h 0 (h.length - 1)).length := by
    rw [length_lswap]; omega
  rw [down_untouched _ _ _ hlen _ le_rfl]
  rw [lget_lswap _ _ _ _ (by omega) (by omega)]
  rw [if_pos rfl]

lemma heapPop_snd_length (h : List FileStat) (hne : h ≠ []) :
    (heapPop h).2.length = h.length - 1 := by
  rw [heapPop_eq h hne]
  show ((down (lswap h 0 (h.length - 1)) 0 (h.length - 1)).take (h.length - 1)).length
    = h.length - 1
  rw [List.length_take, down_length, length_lswap]
  omega

lemma heapPop_perm (h : List FileStat) (hne : h ≠ []) :
    List.Perm ((heapPop h).1 :: (heapPop h).2) h := by
  have hlen1 : 0 < h.length := List.length_pos.mpr hne
  have hdown : (down (lswap h 0 (h.length - 1)) 0 (h.length - 1)).length = h.length := by
    rw [down_length, length_lswap]
  have hperm : List.Perm (down (lswap h 0 (h.length - 1)) 0 (h.length - 1)) h :=
    (down_perm _ _ _ (by rw [length_lswap]; omega)).trans
      (lswap_perm _ _ _ (by omega) (by omega))
  have hdrop : (down (lswap h 0 (h.length - 1)) 0 (h.length - 1)).drop (h.length - 1)
      = [lget (down (lswap h 0 (h.length - 1)) 0 (h.length - 1)) (h.length - 1)] :=
    drop_last_singleton _ _ (by omega)
  rw [heapPop_eq h hne]
  refine List.Perm.trans ?_ hperm
  refine List.Perm.trans (List.perm_append_singleton _ _).symm ?_
  rw [← hdrop, List.take_append_drop]

lemma heapPop_snd_isHeap (h : List FileStat) (hne : h ≠ []) (hh : IsHeap h) :
    IsHeap (heapPop h).2 := by
  have hlen1 : 0 < h.length := List.length_pos.mpr hne
  have hwin : ∀ c, 0 < c → c < h.length - 1 →
      keyAt (down (lswap h 0 (h.length - 1)) 0 (h.length - 1)) ((c - 1) / 2)
        ≤ keyAt (down (lswap h 0 (h.length - 1)) 0 (h.length - 1)) c := by
    apply down_restores
    · rw [length_lswap]; omega
    · intro c hc hcn hpz
      have hp : (c - 1) / 2 < c := by omega
      rw [keyAt_lswap _ _ _ _ (by omega) (by omega),
        keyAt_lswap _ _ _ _ (by omega) (by omega)]
      rw [if_neg (by omega), if_neg (by omega), if_neg (by omega), if_neg (by omega)]
      exact hh c hc (by omega)
    · intro c hc hcn hpz hz
      exact absurd hz (by omega)
  rw [heapPop_eq h hne]
  intro c hc hcl
  simp only [List.length_take, lt_min_iff] at hcl
  have hcn : c < h.length - 1 := hcl.1
  have hp : (c - 1) / 2 < c := by omega
  show keyAt ((down (lswap h 0 (h.length - 1)) 0 (h.length - 1)).take (h.length - 1))
    ((c - 1) / 2) ≤ keyAt ((down (lswap h 0 (h.length - 1)) 0 (h.length - 1)).take
      (h.length - 1)) c
  unfold keyAt
  rw [lget_take _ _ _ hcn, lget_take _ _ _ (by omega)]
  exact hwin c hc hcn

/-! ### Root minimality and drain -/

lemma isHeap_root_le (h : List FileStat) (hh : IsHeap h) :
    ∀ k, k < h.length → keyAt h 0 ≤ keyAt h k := by
  intro k
  induction k using Nat.strong_induction_on with
  | _ k ih =>
    intro hk
    rcases Nat.eq_zero_or_pos k with h0 | h0
    · rw [h0]
    · have hp : (k - 1) / 2 < k := by omega
      exact le_trans (ih _ hp (by omega)) (hh k h0 hk)

lemma isHeap_root_le_mem (h : List FileStat) (hh : IsHeap h) (y : FileStat)
    (hy : y ∈ h) : keyAt h 0 ≤ y.size := by
  obtain ⟨k, hk, hky⟩ := List.getElem_of_mem hy
  have hkeq : keyAt h k = y.size := by
    rw [keyAt, lget_eq_getElem h k hk, hky]
  rw [← hkeq]
  exact isHeap_root_le h hh k hk

lemma drain_nil : drain [] = [] := by
  unfold drain
  rfl

lemma drain_cons (h : List FileStat) (hne : h ≠ []) :
    drain h = (heapPop h).1 :: drain (heapPop h).2 := by
  cases h with
  | nil => exact absurd rfl hne
  | cons a t =>
    show drainAux (a :: t).length (a :: t) = _
    have hlen : (heapPop (a :: t)).2.length = t.length := by
      rw [heapPop_snd_length _ (by simp)]
      simp
    simp only [List.length_cons, drainAux]
    rw [show drain (heapPop (a :: t)).2
      = drainAux (heapPop (a :: t)).2.length (heapPop (a :: t)).2 from rfl, hlen]

lemma drain_perm (h : List FileStat) (hh : IsHeap h) : List.Perm (drain h) h := by
  suffices key : ∀ (len : Nat) (g : List FileStat), g.length = len → IsHeap g →
      List.Perm (drain g) g from key h.length h rfl hh
  intro len
  induction len using Nat.strong_induction_on with
  | _ len ih =>
    intro g hl hg
    cases g with
    | nil => simp [drain_nil]
    | cons a t =>
      have hne : (a :: t) ≠ [] := by simp
      rw [drain_cons _ hne]
      have hlen := heapPop_snd_length _ hne
      have hsub : IsHeap (heapPop (a :: t)).2 := heapPop_snd_isHeap _ hne hg
      have hrec : List.Perm (drain (heapPop (a :: t)).2) (heapPop (a :: t)).2 := by
        refine ih ((heapPop (a :: t)).2.length) ?_ _ rfl hsub
        rw [hlen, ← hl]
        simp
      exact (List.Perm.cons _ hrec).trans (heapPop_perm _ hne)

lemma drain_length_of_isHeap (h : List FileStat) (hh : IsHeap h) :
    (drain h).length = h.length :=
  (drain_perm h hh).length_eq

lemma drain_sorted (h : List FileStat) (hh : IsHeap h) :
    List.Pairwise (fun a b : FileStat => a.size ≤ b.size) (drain h) := by
  suffices key : ∀ (len : Nat) (g : List FileStat), g.length = len → IsHeap g →
      List.Pairwise (fun a b : FileStat => a.size ≤ b.size) (drain g) from
    key h.length h rfl hh
  intro len
  induction len using Nat.strong_induction_on with
  | _ len ih =>
    intro g hl hg
    cases g with
    | nil => simp [drain_nil]
    | cons a t =>
      have hne : (a :: t) ≠ [] := by simp
      rw [drain_cons _ hne]
      have hlen := heapPop_snd_length _ hne
      have hsub : IsHeap (heapPop (a :: t)).2 := heapPop_snd_isHeap _ hne hg
      refine List.Pairwise.cons ?_ ?_
      · intro b hb
        have hbsub : b ∈ (heapPop (a :: t)).2 :=
          (drain_perm _ hsub).mem_iff.mp hb
        have hbmem : b ∈ (a :: t) :=
          (heapPop_perm _ hne).mem_iff.mp (List.mem_cons_of_mem _ hbsub)
        rw [heapPop_fst _ hne]
        exact isHeap_root_le_mem _ hg b hbmem
      · refine ih ((heapPop (a :: t)).2.length) ?_ _ rfl hsub
        rw [hlen, ← hl]
        simp

/-! ### boundedInsert lemmas -/

lemma heapPop_nil : heapPop [] = (default, []) := rfl

lemma boundedInsert_isHeap (topn : Nat) (h : List FileStat) (x : FileStat)
    (hh : IsHeap h) : IsHeap (boundedInsert topn h x) := by
  unfold boundedInsert
  split
  · exact heapPush_isHeap h x hh
  · split
    · by_cases hne : h = []
      · rw [hne, heapPop_nil]
        exact heapPush_isHeap [] x isHeap_nil
      · exact heapPush_isHeap _ x (heapPop_snd_isHeap h hne hh)
    · exact hh

lemma boundedInsert_length_le (topn : Nat) (h : List FileStat) (x : FileStat) :
    (boundedInsert topn h x).length ≤ h.length + 1 := by
  unfold boundedInsert
  split
  · rw [heapPush_length]
  · split
    · by_cases hne : h = []
      · rw [hne, heapPop_nil, heapPush_length]
      · rw [heapPush_length, heapPop_snd_length _ hne]
        have := List.length_pos.mpr hne
        omega
    · omega

lemma boundedInsert_length_lt (topn : Nat) (h : List FileStat) (x : FileStat)
    (hlt : h.length < topn) :
    (boundedInsert topn h x).length = h.length + 1 := by
  unfold boundedInsert
  rw [if_pos hlt, heapPush_length]

lemma boundedInsert_length_at_cap (topn : Nat) (h : List FileStat) (x : FileStat)
    (hge : ¬ h.length < topn) (hne : h ≠ []) :
    (boundedInsert topn h x).length = h.length := by
  unfold boundedInsert
  rw [if_neg hge]
  split
  · rw [heapPush_length, heapPop_snd_length _ hne]
    have := List.length_pos.mpr hne
    omega
  · rfl

lemma boundedInsert_noop (topn : Nat) (h : List FileStat) (x : FileStat)
    (hge : ¬ h.length < topn) (hle : x.size ≤ keyAt h 0) :
    boundedInsert topn h x = h := by
  unfold boundedInsert
  rw [if_neg hge, if_neg (not_lt.mpr hle)]

/-! ### Collector add shape lemmas -/

lemma add_file_eq (c : Collector) (path : String) (size : Int) (ext : String)
    (hext : ext ≠ "DIR:") :
    c.add path size ext =
      { c with
        totalBytes := c.totalBytes + size
        fileCount := c.fileCount + 1
        extStats := mapSet c.extStats ext
          ⟨(mapGet c.extStats ext).count + 1, (mapGet c.extStats ext).size + size⟩
        topFiles := boundedInsert c.topN c.topFiles ⟨path, size⟩ } := by
  unfold Collector.add
  rw [if_neg hext]

lemma add_dir_eq (c : Collector) (path : String) (size : Int) :
    c.add path size "DIR:" =
      (if (mapGet c.extStats path).count = 0 then
        { c with
          totalBytes := c.totalBytes + size
          fileCount := c.fileCount + 1
          extStats := mapSet c.extStats path
            ⟨(mapGet c.extStats path).count + 1, (mapGet c.extStats path).size + size⟩ }
      else
        { c with
          totalBytes := c.totalBytes + size
          extStats := mapSet c.extStats path
            ⟨(mapGet c.extStats path).count + 1, (mapGet c.extStats path).size + size⟩ }) := by
  unfold Collector.add
  rw [if_pos rfl]
  by_cases hc : (mapGet c.extStats path).count = 0 <;> simp [hc]

lemma add_topN (c : Collector) (path : String) (size : Int) (ext : String) :
    (c.add path size ext).topN = c.topN := by
  by_cases hext : ext = "DIR:"
  · rw [hext, add_dir_eq]
    split <;> rfl
  · rw [add_file_eq c path size ext hext]

lemma add_directoryMode (c : Collector) (path : String) (size : Int) (ext : String) :
    (c.add path size ext).directoryMode = c.directoryMode := by
  by_cases hext : ext = "DIR:"
  · rw [hext, add_dir_eq]
    split <;> rfl
  · rw [add_file_eq c path size ext hext]

lemma add_topFiles (c : Collector) (path : String) (size : Int) (ext : String) :
    (c.add path size ext).topFiles =
      if ext = "DIR:" then c.topFiles
      else boundedInsert c.topN c.topFiles ⟨path, size⟩ := by
  by_cases hext : ext = "DIR:"
  · rw [hext, if_pos rfl, add_dir_eq]
    split <;> rfl
  · rw [add_file_eq c path size ext hext, if_neg hext]

lemma add_totalBytes (c : Collector) (path : String) (size : Int) (ext : String) :
    (c.add path size ext).totalBytes = c.totalBytes + size := by
  by_cases hext : ext = "DIR:"
  · rw [hext, add_dir_eq]
    split <;> rfl
  · rw [add_file_eq c path size ext hext]

lemma add_extStats_length_le (c : Collector) (path : String) (size : Int)
    (ext : String) :
    (c.add path size ext).extStats.length ≤ c.extStats.length + 1 := by
  have hset : ∀ (m : List (String × ExtStat)) (k : String) (v : ExtStat),
      (mapSet m k v).length ≤ m.length + 1 := by
    intro m k v
    unfold mapSet
    split
    · rw [List.length_map]; omega
    · simp
  by_cases hext : ext = "DIR:"
  · rw [hext, add_dir_eq]
    split <;> exact hset _ _ _
  · rw [add_file_eq c path size ext hext]
    exact hset _ _ _

lemma applyAdds_nil (c : Collector) : applyAdds c [] = c := rfl

lemma applyAdds_cons (c : Collector) (a : AddCall) (calls : List AddCall) :
    applyAdds c (a :: calls) = applyAdds (c.add a.path a.size a.ext) calls := rfl

lemma applyAdds_append_one (c : Collector) (calls : List AddCall) (a : AddCall) :
    applyAdds c (calls ++ [a]) = (applyAdds c calls).add a.path a.size a.ext := by
  unfold applyAdds
  rw [List.foldl_append]
  rfl

lemma applyAdds_topN (c : Collector) (calls : List AddCall) :
    (applyAdds c calls).topN = c.topN := by
  induction calls generalizing c with
  | nil => rfl
  | cons a rest ih => rw [applyAdds_cons, ih, add_topN]

lemma applyAdds_directoryMode (c : Collector) (calls : List AddCall) :
    (applyAdds c calls).directoryMode = c.directoryMode := by
  induction calls generalizing c with
  | nil => rfl
  | cons a rest ih => rw [applyAdds_cons, ih, add_directoryMode]

lemma applyAdds_isHeap (c : Collector) (calls : List AddCall)
    (hc : IsHeap c.topFiles) : IsHeap (applyAdds c calls).topFiles := by
  induction calls generalizing c with
  | nil => exact hc
  | cons a rest ih =>
    rw [applyAdds_cons]
    apply ih
    rw [add_topFiles]
    split
    · exact hc
    · exact boundedInsert_isHeap _ _ _ hc

/-! ### Association-list map lemmas -/

/-- the key list of the modelled Go map. -/
def mapKeys (m : List (String × ExtStat)) : List String :=
  m.map Prod.fst

lemma mapSet_cons_ne (kv : String × ExtStat) (rest : List (String × ExtStat))
    (k : String) (v : ExtStat) (hk : kv.1 ≠ k) :
    mapSet (kv :: rest) k v = kv :: mapSet rest k v := by
  unfold mapSet
  have hbeq : (kv.1 == k) = false := by
    simp [hk]
  simp only [List.any_cons, hbeq, Bool.false_or, List.map_cons, if_neg]
  split
  · simp [hbeq]
  · simp

lemma mapGet_cons_eq (kv : String × ExtStat) (rest : List (String × ExtStat))
    (k : String) (hk : kv.1 = k) : mapGet (kv :: rest) k = kv.2 := by
  unfold mapGet
  simp [List.find?, hk]

lemma mapGet_cons_ne (kv : String × ExtStat) (rest : List (String × ExtStat))
    (k : String) (hk : kv.1 ≠ k) : mapGet (kv :: rest) k = mapGet rest k := by
  unfold mapGet
  have hbeq : (kv.1 == k) = false := by simp [hk]
  simp [List.find?, hbeq]

lemma mapGet_nil (k : String) : mapGet [] k = default := rfl

lemma mapGet_mapSet_self (m : List (String × ExtStat)) (k : String) (v : ExtStat) :
    mapGet (mapSet m k v) k = v := by
  induction m with
  | nil =>
    unfold mapSet
    simp [mapGet_cons_eq (k, v) [] k rfl]
  | cons kv rest ih =>
    by_cases hk : kv.1 = k
    · unfold mapSet
      have hbeq : (kv.1 == k) = true := by simp [hk]
      simp only [List.any_cons, hbeq, Bool.true_or, if_pos, List.map_cons]
      exact mapGet_cons_eq _ _ _ rfl
    · rw [mapSet_cons_ne kv rest k v hk, mapGet_cons_ne _ _ _ hk]
      exact ih

lemma mapKeys_mapSet_of_mem (m : List (String × ExtStat)) (k : String)
    (v : ExtStat) (hm : k ∈ mapKeys m) :
    mapKeys (mapSet m k v) = mapKeys m := by
  have hany : (m.any (fun kv => kv.1 == k)) = true := by
    simp only [mapKeys, List.mem_map] at hm
    obtain ⟨kv, hkv, hfst⟩ := hm
    simp only [List.any_eq_true]
    exact ⟨kv, hkv, by simp [hfst]⟩
  unfold mapSet
  rw [if_pos hany]
  unfold mapKeys
  rw [List.map_map]
  apply List.map_congr_left
  intro kv _
  by_cases hkv : kv.1 = k
  · simp [hkv]
  · simp [hkv]

lemma mapKeys_mapSet_of_not_mem (m : List (String × ExtStat)) (k : String)
    (v : ExtStat) (hm : k ∉ mapKeys m) :
    mapKeys (mapSet m k v) = mapKeys m ++ [k] := by
  have hany : (m.any (fun kv => kv.1 == k)) = false := by
    simp only [List.any_eq_false]
    intro kv hkv
    simp only [beq_iff_eq]
    intro heq
    exact hm (List.mem_map.mpr ⟨kv, hkv, heq⟩)
  unfold mapSet
  rw [if_neg (by simp [hany])]
  unfold mapKeys
  simp

lemma mapKeys_mapSet_nodup (m : List (String × ExtStat)) (k : String)
    (v : ExtStat) (hnd : (mapKeys m).Nodup) :
    (mapKeys (mapSet m k v)).Nodup := by
  by_cases hm : k ∈ mapKeys m
  · rw [mapKeys_mapSet_of_mem m k v hm]
    exact hnd
  · rw [mapKeys_mapSet_of_not_mem m k v hm]
    simp [List.nodup_append, hnd, hm]

lemma mem_mapKeys_mapSet (m : List (String × ExtStat)) (k k2 : String)
    (v : ExtStat) :
    k2 ∈ mapKeys (mapSet m k v) ↔ k2 ∈ mapKeys m ∨ k2 = k := by
  by_cases hm : k ∈ mapKeys m
  · rw [mapKeys_mapSet_of_mem m k v hm]
    constructor
    · exact Or.inl
    · rintro (h | h)
      · exact h
      · rw [h]; exact hm
  · rw [mapKeys_mapSet_of_not_mem m k v hm]
    simp

lemma mapSet_length_of_mem (m : List (String × ExtStat)) (k : String)
    (v : ExtStat) (hm : k ∈ mapKeys m) :
    (mapSet m k v).length = m.length := by
  have heq := mapKeys_mapSet_of_mem m k v hm
  have h1 : (mapKeys (mapSet m k v)).length = (mapKeys m).length := by rw [heq]
  simpa [mapKeys] using h1

lemma mapSet_length_of_not_mem (m : List (String × ExtStat)) (k : String)
    (v : ExtStat) (hm : k ∉ mapKeys m) :
    (mapSet m k v).length = m.length + 1 := by
  have heq := mapKeys_mapSet_of_not_mem m k v hm
  have h1 : (mapKeys (mapSet m k v)).length = (mapKeys m).length + 1 := by
    rw [heq]; simp
  simpa [mapKeys] using h1

/-- the sum of category sizes over the map. -/
def sumSizes (m : List (String × ExtStat)) : Int :=
  (m.map (fun kv => kv.2.size)).sum

lemma sumSizes_nil : sumSizes [] = 0 := rfl

lemma sumSizes_cons (kv : String × ExtStat) (rest : List (String × ExtStat)) :
    sumSizes (kv :: rest) = kv.2.size + sumSizes rest := by
  simp [sumSizes]

lemma mapSet_map_noop (m : List (String × ExtStat)) (k : String) (v : ExtStat)
    (hm : ∀ e ∈ m, e.1 ≠ k) :
    m.map (fun e => if e.1 == k then (k, v) else e) = m := by
  induction m with
  | nil => rfl
  | cons e rest ih =>
    have he : (e.1 == k) = false := by simp [hm e (by simp)]
    rw [List.map_cons, if_neg (by simp [he]),
      ih (fun x hx => hm x (List.mem_cons_of_mem _ hx))]

lemma sumSizes_mapSet (m : List (String × ExtStat)) (k : String)
    (hnd : (mapKeys m).Nodup) (n s : Int) :
    sumSizes (mapSet m k ⟨n, (mapGet m k).size + s⟩) = sumSizes m + s := by
  induction m with
  | nil =>
    unfold mapSet
    simp [sumSizes, mapGet_nil]
    rfl
  | cons kv rest ih =>
    have hndr : (mapKeys rest).Nodup := by
      simp only [mapKeys, List.map_cons, List.nodup_cons] at hnd
      exact hnd.2
    by_cases hk : kv.1 = k
    · have hkm : k ∉ mapKeys rest := by
        simp only [mapKeys, List.map_cons, List.nodup_cons] at hnd
        rw [← hk]
        exact hnd.1
      have hrest : ∀ e ∈ rest, e.1 ≠ k := by
        intro e he heq
        exact hkm (List.mem_map.mpr ⟨e, he, heq⟩)
      have hany : ((kv :: rest).any (fun e => e.1 == k)) = true := by
        simp [hk]
      unfold mapSet
      rw [if_pos hany]
      rw [List.map_cons, if_pos (by simp [hk])]
      rw [mapSet_map_noop rest k _ hrest]
      rw [mapGet_cons_eq kv rest k hk]
      rw [sumSizes_cons, sumSizes_cons]
      ring
    · rw [mapGet_cons_ne kv rest k hk, mapSet_cons_ne kv rest k _ hk]
      rw [sumSizes_cons, sumSizes_cons, ih hndr]
      ring

/-! ### Collector invariants over admitted sequences -/

lemma add_extStats (c : Collector) (path : String) (size : Int) (ext : String) :
    (c.add path size ext).extStats =
      if ext = "DIR:" then
        mapSet c.extStats path
          ⟨(mapGet c.extStats path).count + 1, (mapGet c.extStats path).size + size⟩
      else
        mapSet c.extStats ext
          ⟨(mapGet c.extStats ext).count + 1, (mapGet c.extStats ext).size + size⟩ := by
  by_cases hext : ext = "DIR:"
  · rw [hext, if_pos rfl, add_dir_eq]
    split <;> rfl
  · rw [add_file_eq c path size ext hext, if_neg hext]

lemma add_keys_nodup (c : Collector) (path : String) (size : Int) (ext : String)
    (hnd : (mapKeys c.extStats).Nodup) :
    (mapKeys (c.add path size ext).extStats).Nodup := by
  rw [add_extStats]
  split <;> exact mapKeys_mapSet_nodup _ _ _ hnd

lemma add_sum (c : Collector) (path : String) (size : Int) (ext : String)
    (hnd : (mapKeys c.extStats).Nodup) :
    sumSizes (c.add path size ext).extStats = sumSizes c.extStats + size := by
  rw [add_extStats]
  split <;> exact sumSizes_mapSet _ _ hnd _ _

lemma applyAdds_sum (calls : List AddCall) (c : Collector)
    (hnd : (mapKeys c.extStats).Nodup)
    (hsum : sumSizes c.extStats = c.totalBytes) :
    (mapKeys (applyAdds c calls).extStats).Nodup ∧
    sumSizes (applyAdds c calls).extStats = (applyAdds c calls).totalBytes := by
  induction calls generalizing c with
  | nil => exact ⟨hnd, hsum⟩
  | cons a rest ih =>
    rw [applyAdds_cons]
    refine ih _ (add_keys_nodup _ _ _ _ hnd) ?_
    rw [add_sum _ _ _ _ hnd, add_totalBytes, hsum]

/-- replaying a directory-mode admitted sequence. -/
def applyDirAdds (c : Collector) (calls : List (String × Int)) : Collector :=
  calls.foldl (fun acc pc => acc.add pc.1 pc.2 "DIR:") c

lemma applyDirAdds_nil (c : Collector) : applyDirAdds c [] = c := rfl

lemma applyDirAdds_cons (c : Collector) (pc : String × Int)
    (calls : List (String × Int)) :
    applyDirAdds c (pc :: calls) = applyDirAdds (c.add pc.1 pc.2 "DIR:") calls := rfl

lemma applyDirAdds_extStats (calls : List (String × Int)) (c : Collector)
    (hnd : (mapKeys c.extStats).Nodup) :
    (mapKeys (applyDirAdds c calls).extStats).Nodup ∧
    ∀ k, k ∈ mapKeys (applyDirAdds c calls).extStats ↔
      (k ∈ mapKeys c.extStats ∨ k ∈ calls.map Prod.fst) := by
  induction calls generalizing c with
  | nil =>
    refine ⟨hnd, ?_⟩
    intro k
    simp [applyDirAdds]
  | cons pc rest ih =>
    rw [applyDirAdds_cons]
    have hstep : (c.add pc.1 pc.2 "DIR:").extStats =
        mapSet c.extStats pc.1
          ⟨(mapGet c.extStats pc.1).count + 1, (mapGet c.extStats pc.1).size + pc.2⟩ := by
      rw [add_extStats, if_pos rfl]
    obtain ⟨h1, h2⟩ := ih (c.add pc.1 pc.2 "DIR:")
      (by rw [hstep]; exact mapKeys_mapSet_nodup _ _ _ hnd)
    refine ⟨h1, ?_⟩
    intro k
    rw [h2 k, hstep, mem_mapKeys_mapSet]
    simp only [List.map_cons, List.mem_cons]
    tauto

lemma applyDirAdds_directoryMode (c : Collector) (calls : List (String × Int)) :
    (applyDirAdds c calls).directoryMode = c.directoryMode := by
  induction calls generalizing c with
  | nil => rfl
  | cons pc rest ih => rw [applyDirAdds_cons, ih, add_directoryMode]

lemma applyDirAdds_topN (c : Collector) (calls : List (String × Int)) :
    (applyDirAdds c calls).topN = c.topN := by
  induction calls generalizing c with
  | nil => rfl
  | cons pc rest ih => rw [applyDirAdds_cons, ih, add_topN]

/-! ### finalize shape lemmas -/

lemma finalize_dir (c : Collector) (hc : c.directoryMode = true) :
    c.finalize =
      { fileCount := (c.extStats.length : Int)
        totalBytes := c.totalBytes
        extStats := []
        topFiles := finalizeTop
          (c.extStats.foldl (fun h kv => boundedInsert c.topN h ⟨kv.1, kv.2.size⟩) [])
        errorCount := c.errorCount
        directoryMode := c.directoryMode
        topN := c.topN } := by
  unfold Collector.finalize
  rw [if_pos hc]

lemma finalize_file (c : Collector) (hc : c.directoryMode = false) :
    c.finalize =
      { fileCount := c.fileCount
        totalBytes := c.totalBytes
        extStats := c.extStats
        topFiles := finalizeTop c.topFiles
        errorCount := c.errorCount
        directoryMode := c.directoryMode
        topN := c.topN } := by
  unfold Collector.finalize
  rw [if_neg (by simp [hc])]

/-! ### Length and heap-shape bounds used by the top-N claims -/

lemma newCollector_extStats (topn : Nat) (mode : Bool) :
    (newCollector topn mode).extStats = [] := rfl

lemma newCollector_topFiles (topn : Nat) (mode : Bool) :
    (newCollector topn mode).topFiles = [] := rfl

lemma effTopN_pos (t : Int) : 1 ≤ effTopN t := by
  unfold effTopN
  split
  · omega
  · omega

lemma foldl_boundedInsert_isHeap (topn : Nat) (l : List (String × ExtStat))
    (acc : List FileStat) (hacc : IsHeap acc) :
    IsHeap (l.foldl (fun h kv => boundedInsert topn h ⟨kv.1, kv.2.size⟩) acc) := by
  induction l generalizing acc with
  | nil => exact hacc
  | cons kv rest ih =>
    exact ih _ (boundedInsert_isHeap _ _ _ hacc)

lemma foldl_boundedInsert_length (topn : Nat) (ht : 1 ≤ topn)
    (l : List (String × ExtStat)) (acc : List FileStat) (hacc : acc.length ≤ topn) :
    (l.foldl (fun h kv => boundedInsert topn h ⟨kv.1, kv.2.size⟩) acc).length ≤ topn ∧
    (l.foldl (fun h kv => boundedInsert topn h ⟨kv.1, kv.2.size⟩) acc).length
      ≤ acc.length + l.length := by
  induction l generalizing acc with
  | nil => exact ⟨hacc, by simp⟩
  | cons kv rest ih =>
    have hstep : (boundedInsert topn acc ⟨kv.1, kv.2.size⟩).length ≤ topn := by
      by_cases hlt : acc.length < topn
      · rw [boundedInsert_length_lt _ _ _ hlt]
        omega
      · have hne : acc ≠ [] := by
          intro he
          rw [he] at hlt
          simp at hlt
          omega
        rw [boundedInsert_length_at_cap _ _ _ hlt hne]
        exact hacc
    obtain ⟨h1, h2⟩ := ih (boundedInsert topn acc ⟨kv.1, kv.2.size⟩) hstep
    refine ⟨h1, le_trans h2 ?_⟩
    have := boundedInsert_length_le topn acc ⟨kv.1, kv.2.size⟩
    simp only [List.length_cons]
    omega

lemma applyAdds_topFiles_le_topN (calls : List AddCall) (c : Collector)
    (ht : 1 ≤ c.topN) (hc : c.topFiles.length ≤ c.topN) :
    (applyAdds c calls).topFiles.length ≤ c.topN := by
  induction calls generalizing c with
  | nil => exact hc
  | cons a rest ih =>
    rw [applyAdds_cons]
    have hres := ih (c.add a.path a.size a.ext)
      (by rw [add_topN]; exact ht) ?_
    · rw [add_topN] at hres
      exact hres
    · rw [add_topN, add_topFiles]
      split
      · exact hc
      · by_cases hlt : c.topFiles.length < c.topN
        · rw [boundedInsert_length_lt _ _ _ hlt]
          omega
        · have hne : c.topFiles ≠ [] := by
            intro he
            rw [he] at hlt
            simp at hlt
            omega
          rw [boundedInsert_length_at_cap _ _ _ hlt hne]
          exact hc

lemma applyAdds_topFiles_le_count (calls : List AddCall) (c : Collector) :
    (applyAdds c calls).topFiles.length ≤ c.topFiles.length + calls.length := by
  induction calls generalizing c with
  | nil => simp [applyAdds_nil]
  | cons a rest ih =>
    rw [applyAdds_cons]
    refine le_trans (ih _) ?_
    rw [add_topFiles]
    simp only [List.length_cons]
    split
    · omega
    · have := boundedInsert_length_le c.topN c.topFiles ⟨a.path, a.size⟩
      omega

lemma applyAdds_extStats_le (calls : List AddCall) (c : Collector) :
    (applyAdds c calls).extStats.length ≤ c.extStats.length + calls.length := by
  induction calls generalizing c with
  | nil => simp [applyAdds_nil]
  | cons a rest ih =>
    rw [applyAdds_cons]
    refine le_trans (ih _) ?_
    have := add_extStats_length_le c a.path a.size a.ext
    simp only [List.length_cons]
    omega

lemma finalizeTop_length (h : List FileStat) (hh : IsHeap h) :
    (finalizeTop h).length = h.length := by
  unfold finalizeTop
  rw [List.length_map]
  exact drain_length_of_isHeap h hh

lemma finalizeTop_sorted (h : List FileStat) (hh : IsHeap h) :
    List.Pairwise (fun a b : FileStat => a.size ≤ b.size) (finalizeTop h) := by
  unfold finalizeTop
  rw [List.pairwise_map]
  exact drain_sorted h hh

/-! ### Top-N accounting: every admitted entry is in the heap or was
discarded against a key at most the current root -/

lemma applyAdds_accounting (topn : Nat) (ht : 1 ≤ topn) (calls : List AddCall)
    (hFile : ∀ a ∈ calls, a.ext ≠ "DIR:") :
    (applyAdds (newCollector topn false) calls).topFiles.length
      = min calls.length topn ∧
    ∃ disc : List FileStat,
      List.Perm (calls.map toFS)
        ((applyAdds (newCollector topn false) calls).topFiles ++ disc) ∧
      ∀ d ∈ disc, d.size ≤ keyAt (applyAdds (newCollector topn false) calls).topFiles 0 := by
  induction calls using List.reverseRecOn with
  | nil =>
    exact ⟨by simp [applyAdds_nil, newCollector], [],
      by simp [applyAdds_nil, newCollector], by simp⟩
  | append_singleton cs a ih =>
    obtain ⟨hL, disc, hP, hD⟩ := ih (fun x hx => hFile x (List.mem_append_left _ hx))
    have hae : a.ext ≠ "DIR:" := hFile a (List.mem_append_right _ (by simp))
    have hH : IsHeap (applyAdds (newCollector topn false) cs).topFiles :=
      applyAdds_isHeap _ _ isHeap_nil
    have htn : (applyAdds (newCollector topn false) cs).topN = topn := by
      rw [applyAdds_topN]
      rfl
    have htf : (applyAdds (newCollector topn false) (cs ++ [a])).topFiles
        = boundedInsert topn (applyAdds (newCollector topn false) cs).topFiles (toFS a) := by
      rw [applyAdds_append_one, add_topFiles, if_neg hae, htn]
      rfl
    have hmap : (cs ++ [a]).map toFS = cs.map toFS ++ [toFS a] := by simp
    rw [htf, hmap]
    by_cases hlt : (applyAdds (newCollector topn false) cs).topFiles.length < topn
    · -- below capacity: unconditional push, nothing has been discarded
      have hdisc : disc = [] := by
        have hple := hP.length_eq
        simp only [List.length_map, List.length_append] at hple
        have hdl : disc.length = 0 := by omega
        exact List.length_eq_zero.mp hdl
      subst hdisc
      have hbi : boundedInsert topn (applyAdds (newCollector topn false) cs).topFiles (toFS a)
          = heapPush (applyAdds (newCollector topn false) cs).topFiles (toFS a) := by
        unfold boundedInsert
        rw [if_pos hlt]
      rw [hbi]
      refine ⟨?_, [], ?_, by simp⟩
      · rw [heapPush_length]
        simp only [List.length_append, List.length_cons, List.length_nil]
        omega
      · simp only [List.append_nil] at hP ⊢
        exact ((List.perm_append_singleton _ _).trans
          (List.Perm.cons _ hP)).trans (heapPush_perm _ _).symm
    · -- at capacity
      have hcap : (applyAdds (newCollector topn false) cs).topFiles.length = topn := by
        omega
      have hcsge : topn ≤ cs.length := by omega
      have hne : (applyAdds (newCollector topn false) cs).topFiles ≠ [] := by
        intro he
        rw [he] at hcap
        simp at hcap
        omega
      by_cases hgt : (toFS a).size > keyAt (applyAdds (newCollector topn false) cs).topFiles 0
      · -- strictly larger: evict the root, push the newcomer
        have hbi : boundedInsert topn (applyAdds (newCollector topn false) cs).topFiles (toFS a)
            = heapPush (heapPop (applyAdds (newCollector topn false) cs).topFiles).2 (toFS a) := by
          unfold boundedInsert
          rw [if_neg hlt, if_pos hgt]
        rw [hbi]
        have hpopf := heapPop_fst _ hne
        have hpopl := heapPop_snd_length _ hne
        have hpopp := heapPop_perm _ hne
        refine ⟨?_, (heapPop (applyAdds (newCollector topn false) cs).topFiles).1 :: disc,
          ?_, ?_⟩
        · rw [heapPush_length, hpopl, hcap]
          simp only [List.length_append, List.length_cons, List.length_nil]
          omega
        · refine ((List.perm_append_singleton _ _).trans (List.Perm.cons _ hP)).trans ?_
          refine (List.Perm.cons _ ((hpopp.symm).append_right disc)).trans ?_
          show List.Perm
            (toFS a :: ((heapPop (applyAdds (newCollector topn false) cs).topFiles).1
              :: ((heapPop (applyAdds (newCollector topn false) cs).topFiles).2 ++ disc))) _
          refine List.Perm.symm ?_
          refine (((heapPush_perm _ (toFS a)).append_right _).trans ?_)
          show List.Perm
            (toFS a :: ((heapPop (applyAdds (newCollector topn false) cs).topFiles).2
              ++ (heapPop (applyAdds (newCollector topn false) cs).topFiles).1 :: disc)) _
          exact List.Perm.cons _ List.perm_middle
        · -- the new root is at least the old root
          have hlen2 : 0 < (heapPush
              (heapPop (applyAdds (newCollector topn false) cs).topFiles).2 (toFS a)).length := by
            rw [heapPush_length]
            omega
          have hrootmem := lget_mem _ 0 hlen2
          have hrootmem2 : lget (heapPush
              (heapPop (applyAdds (newCollector topn false) cs).topFiles).2 (toFS a)) 0
                ∈ toFS a :: (heapPop (applyAdds (newCollector topn false) cs).topFiles).2 :=
            (heapPush_perm _ _).mem_iff.mp hrootmem
          have hlb : keyAt (applyAdds (newCollector topn false) cs).topFiles 0
              ≤ keyAt (heapPush
                (heapPop (applyAdds (newCollector topn false) cs).topFiles).2 (toFS a)) 0 := by
            rcases List.mem_cons.mp hrootmem2 with heq | hmem
            · have hkey : keyAt (heapPush
                  (heapPop (applyAdds (newCollector topn false) cs).topFiles).2 (toFS a)) 0
                    = (toFS a).size := by
                unfold keyAt
                rw [heq]
              rw [hkey]
              exact le_of_lt hgt
            · have hmem2 : lget (heapPush
                  (heapPop (applyAdds (newCollector topn false) cs).topFiles).2 (toFS a)) 0
                    ∈ (applyAdds (newCollector topn false) cs).topFiles :=
                hpopp.mem_iff.mp (List.mem_cons_of_mem _ hmem)
              exact isHeap_root_le_mem _ hH _ hmem2
          intro d hd
          rcases List.mem_cons.mp hd with heq | hmem
          · rw [heq, hpopf]
            exact hlb
          · exact le_trans (hD d hmem) hlb
      · -- tie or smaller: the newcomer is discarded, the heap is unchanged
        have hbi : boundedInsert topn (applyAdds (newCollector topn false) cs).topFiles (toFS a)
            = (applyAdds (newCollector topn false) cs).topFiles :=
          boundedInsert_noop _ _ _ hlt (not_lt.mp hgt)
        rw [hbi]
        refine ⟨?_, toFS a :: disc, ?_, ?_⟩
        · rw [hcap]
          simp only [List.length_append, List.length_cons, List.length_nil]
          omega
        · exact ((List.perm_append_singleton _ _).trans
            (List.Perm.cons _ hP)).trans List.perm_middle.symm
        · intro d hd
          rcases List.mem_cons.mp hd with heq | hmem
          · rw [heq]
            exact not_lt.mp hgt
          · exact hD d hmem

/-! ### Claim theorems: C2, C6, C3, C4 -/

/-- C2: in file mode, after any sequence of collector add calls, the sum
of ExtStat.Size over all keys of the returned Stats.ExtStats equals
Stats.TotalBytes: each add pushes the same size into one category entry
and into the running total. -/
theorem extsum_eq_totalbytes (topn : Nat) (calls : List AddCall) :
    sumSizes ((applyAdds (newCollector topn false) calls).finalize).extStats
      = ((applyAdds (newCollector topn false) calls).finalize).totalBytes := by
  have hmode : (applyAdds (newCollector topn false) calls).directoryMode = false := by
    rw [applyAdds_directoryMode]
    rfl
  rw [finalize_file _ hmode]
  exact (applyAdds_sum calls _ (by simp [newCollector, mapKeys])
    (by simp [newCollector, sumSizes])).2

/-- C6: in directory mode the finalized Stats has an empty per-extension
map, and FileCount is the number of distinct directory categories that
received at least one admitted file. -/
theorem dirmode_filecount_distinct (topn : Nat) (calls : List (String × Int)) :
    ((applyDirAdds (newCollector topn true) calls).finalize).extStats = [] ∧
    ((applyDirAdds (newCollector topn true) calls).finalize).fileCount
      = ((calls.map Prod.fst).dedup.length : Int) := by
  have hmode : (applyDirAdds (newCollector topn true) calls).directoryMode = true := by
    rw [applyDirAdds_directoryMode]
    rfl
  rw [finalize_dir _ hmode]
  refine ⟨rfl, ?_⟩
  obtain ⟨hnd, hmem⟩ := applyDirAdds_extStats calls (newCollector topn true)
    (by simp [newCollector, mapKeys])
  have hmem2 : ∀ k, k ∈ mapKeys (applyDirAdds (newCollector topn true) calls).extStats
      ↔ k ∈ calls.map Prod.fst := by
    intro k
    rw [hmem k]
    simp [newCollector, mapKeys]
  have hlen : (applyDirAdds (newCollector topn true) calls).extStats.length
      = (mapKeys (applyDirAdds (newCollector topn true) calls).extStats).length := by
    simp [mapKeys]
  have hfin : (mapKeys (applyDirAdds (newCollector topn true) calls).extStats).toFinset
      = (calls.map Prod.fst).toFinset := by
    ext k
    simp only [List.mem_toFinset]
    exact hmem2 k
  have h1 := List.toFinset_card_of_nodup hnd
  have h2 := List.card_toFinset (calls.map Prod.fst)
  have : (applyDirAdds (newCollector topn true) calls).extStats.length
      = (calls.map Prod.fst).dedup.length := by
    rw [hlen, ← h1, hfin, h2]
  rw [this]

/-- C3: for every reachable collector state, in both file and directory
mode, the finalized TopFiles list is sorted ascending by size (so the
largest entry is last). -/
theorem topfiles_sorted (topn : Nat) (mode : Bool) (calls : List AddCall) :
    List.Pairwise (fun a b : FileStat => a.size ≤ b.size)
      ((applyAdds (newCollector topn mode) calls).finalize).topFiles := by
  have hmode : (applyAdds (newCollector topn mode) calls).directoryMode = mode := by
    rw [applyAdds_directoryMode]
    rfl
  cases mode with
  | false =>
    rw [finalize_file _ hmode]
    exact finalizeTop_sorted _ (applyAdds_isHeap _ _ isHeap_nil)
  | true =>
    rw [finalize_dir _ hmode]
    exact finalizeTop_sorted _ (foldl_boundedInsert_isHeap _ _ _ isHeap_nil)

/-- C4: the finalized TopFiles list never exceeds the effective top-N nor
the number of admitted entries, Stats.TopN is the effective top-N, and
the effective top-N is the configured value when positive, else 20. -/
theorem topfiles_length_bound (t : Int) (mode : Bool) (calls : List AddCall) :
    ((applyAdds (newCollector (effTopN t) mode) calls).finalize).topFiles.length
      ≤ min (effTopN t) calls.length ∧
    ((applyAdds (newCollector (effTopN t) mode) calls).finalize).topN = effTopN t ∧
    effTopN t = (if t > 0 then t.toNat else 20) := by
  have hmode : (applyAdds (newCollector (effTopN t) mode) calls).directoryMode = mode := by
    rw [applyAdds_directoryMode]
    rfl
  have htopn : (applyAdds (newCollector (effTopN t) mode) calls).topN = effTopN t := by
    rw [applyAdds_topN]
    rfl
  have heff : effTopN t = (if t > 0 then t.toNat else 20) := by
    unfold effTopN
    by_cases hpos : t > 0
    · rw [if_neg (by omega), if_pos hpos]
    · rw [if_pos (by omega), if_neg hpos]
  refine ⟨?_, ?_, heff⟩
  · cases mode with
    | false =>
      rw [finalize_file _ hmode]
      have hheap : IsHeap (applyAdds (newCollector (effTopN t) false) calls).topFiles :=
        applyAdds_isHeap _ _ isHeap_nil
      rw [finalizeTop_length _ hheap]
      refine le_min ?_ ?_
      · have := applyAdds_topFiles_le_topN calls (newCollector (effTopN t) false)
          (effTopN_pos t) (by simp [newCollector])
        simpa [newCollector] using this
      · have := applyAdds_topFiles_le_count calls (newCollector (effTopN t) false)
        simpa [newCollector] using this
    | true =>
      rw [finalize_dir _ hmode]
      have hheap : IsHeap ((applyAdds (newCollector (effTopN t) true) calls).extStats.foldl
          (fun h kv => boundedInsert (applyAdds (newCollector (effTopN t) true) calls).topN h
            ⟨kv.1, kv.2.size⟩) []) :=
        foldl_boundedInsert_isHeap _ _ _ isHeap_nil
      rw [finalizeTop_length _ hheap]
      obtain ⟨h1, h2⟩ := foldl_boundedInsert_length
        ((applyAdds (newCollector (effTopN t) true) calls).topN)
        (by rw [htopn]; exact effTopN_pos t)
        ((applyAdds (newCollector (effTopN t) true) calls).extStats) [] (by simp)
      refine le_min ?_ ?_
      · exact le_trans h1 (le_of_eq htopn)
      · refine le_trans h2 ?_
        have := applyAdds_extStats_le calls (newCollector (effTopN t) true)
        simpa [newCollector] using this
  · cases mode with
    | false => rw [finalize_file _ hmode]; exact htopn
    | true => rw [finalize_dir _ hmode]; exact htopn

/-! ### Claim theorems: C1 and C7 -/

/-- C1 counterexample: the claim as stated compares the admitted
(path, size) pair against the returned list, but finalize rewrites the
displayed path (leading dot-slash stripped), so the admitted entry
("./big", 100) is absent from the returned list even though its heap
entry survives, while the minimum size present is 5 and 100 is not at
most 5. -/
theorem topfiles_pair_absent_counterexample :
    ((applyAdds (newCollector 2 false)
        [⟨"x", 5, ""⟩, ⟨"./big", 100, ""⟩]).finalize).topFiles
      = [⟨"x", 5⟩, ⟨"big", 100⟩] ∧
    (⟨"./big", 100, ""⟩ : AddCall) ∈ ([⟨"x", 5, ""⟩, ⟨"./big", 100, ""⟩] : List AddCall) ∧
    (⟨"./big", (100 : Int)⟩ : FileStat) ∉ ((applyAdds (newCollector 2 false)
        [⟨"x", 5, ""⟩, ⟨"./big", 100, ""⟩]).finalize).topFiles ∧
    ¬ ((100 : Int) ≤ 5) := by
  decide

/-- C1 (amended): in file mode with a positive top-N, every admitted
entry whose display-normalized (path, size) pair is absent from the
returned TopFiles has size at most the minimum size present in the
returned list (the head of the ascending list). -/
theorem topfiles_hold_largest (topn : Nat) (ht : 1 ≤ topn) (calls : List AddCall)
    (hFile : ∀ a ∈ calls, a.ext ≠ "DIR:") (a : AddCall) (ha : a ∈ calls)
    (habs : (⟨normalizePath a.path, a.size⟩ : FileStat)
      ∉ ((applyAdds (newCollector topn false) calls).finalize).topFiles) :
    ∃ m, ((applyAdds (newCollector topn false) calls).finalize).topFiles.head? = some m ∧
      (∀ f ∈ ((applyAdds (newCollector topn false) calls).finalize).topFiles,
        m.size ≤ f.size) ∧
      a.size ≤ m.size := by
  have hmode : (applyAdds (newCollector topn false) calls).directoryMode = false := by
    rw [applyAdds_directoryMode]
    rfl
  have hH : IsHeap (applyAdds (newCollector topn false) calls).topFiles :=
    applyAdds_isHeap _ _ isHeap_nil
  obtain ⟨hL, disc, hP, hD⟩ := applyAdds_accounting topn ht calls hFile
  rw [finalize_file _ hmode] at habs ⊢
  have hne : (applyAdds (newCollector topn false) calls).topFiles ≠ [] := by
    intro hnil
    rw [hnil] at hL
    have hc1 : 1 ≤ calls.length := List.length_pos.mpr (by
      intro hcn
      rw [hcn] at ha
      exact absurd ha (by simp))
    simp at hL
    omega
  -- the head of the finalized list is the normalized heap root
  have hdrain := drain_cons _ hne
  have hfz : ((applyAdds (newCollector topn false) calls).finalize).topFiles
      = finalizeTop (applyAdds (newCollector topn false) calls).topFiles := by
    rw [finalize_file _ hmode]
  refine ⟨⟨normalizePath (lget (applyAdds (newCollector topn false) calls).topFiles 0).path,
    (lget (applyAdds (newCollector topn false) calls).topFiles 0).size⟩, ?_, ?_, ?_⟩
  · show (finalizeTop (applyAdds (newCollector topn false) calls).topFiles).head? = _
    unfold finalizeTop
    rw [hdrain, heapPop_fst _ hne]
    rfl
  · intro f hf
    have hf2 : f ∈ finalizeTop (applyAdds (newCollector topn false) calls).topFiles := hf
    unfold finalizeTop at hf2
    obtain ⟨g, hg, hgf⟩ := List.mem_map.mp hf2
    have hgmem : g ∈ (applyAdds (newCollector topn false) calls).topFiles :=
      (drain_perm _ hH).mem_iff.mp hg
    have hle := isHeap_root_le_mem _ hH g hgmem
    rw [← hgf]
    exact hle
  · -- the admitted entry must be among the discarded ones
    have hmem : toFS a ∈ (applyAdds (newCollector topn false) calls).topFiles ++ disc :=
      hP.mem_iff.mp (List.mem_map_of_mem toFS ha)
    rcases List.mem_append.mp hmem with hmem | hmem
    · exfalso
      apply habs
      show (⟨normalizePath a.path, a.size⟩ : FileStat)
        ∈ finalizeTop (applyAdds (newCollector topn false) calls).topFiles
      unfold finalizeTop
      refine List.mem_map.mpr ⟨toFS a, ?_, rfl⟩
      exact (drain_perm _ hH).mem_iff.mpr hmem
    · exact hD (toFS a) hmem

/-- C1 witness at a concrete input: with top-N 1 and admitted sizes 5
then 3, the entry of size 3 is absent from the result and bounded by the
minimum present. -/
theorem topfiles_hold_largest_witness :
    ∃ m, ((applyAdds (newCollector 1 false)
        [⟨"a", 5, ""⟩, ⟨"b", 3, ""⟩]).finalize).topFiles.head? = some m ∧
      (∀ f ∈ ((applyAdds (newCollector 1 false)
        [⟨"a", 5, ""⟩, ⟨"b", 3, ""⟩]).finalize).topFiles, m.size ≤ f.size) ∧
      (3 : Int) ≤ m.size :=
  topfiles_hold_largest 1 (by decide) [⟨"a", 5, ""⟩, ⟨"b", 3, ""⟩] (by decide)
    ⟨"b", 3, ""⟩ (by decide) (by decide)

/-- C7: when the top-N heap is at capacity, a new file-mode entry whose
size equals the current minimum (the root of the reachable heap, which
is at most every member) does not evict it: the heap is left unchanged,
so the first-seen equal-size entry stays and the later candidate is
discarded. -/
theorem equal_size_candidate_discarded (topn : Nat) (calls : List AddCall)
    (p : String) (s : Int) (e : String) (he : e ≠ "DIR:")
    (hcap : (applyAdds (newCollector topn false) calls).topFiles.length = topn)
    (hs : s = keyAt (applyAdds (newCollector topn false) calls).topFiles 0) :
    ((applyAdds (newCollector topn false) calls).add p s e).topFiles
      = (applyAdds (newCollector topn false) calls).topFiles ∧
    ∀ f ∈ (applyAdds (newCollector topn false) calls).topFiles,
      keyAt (applyAdds (newCollector topn false) calls).topFiles 0 ≤ f.size := by
  have hH : IsHeap (applyAdds (newCollector topn false) calls).topFiles :=
    applyAdds_isHeap _ _ isHeap_nil
  have htn : (applyAdds (newCollector topn false) calls).topN = topn := by
    rw [applyAdds_topN]
    rfl
  constructor
  · rw [add_topFiles, if_neg he, htn]
    exact boundedInsert_noop _ _ _ (by omega) (le_of_eq hs)
  · intro f hf
    exact isHeap_root_le_mem _ hH f hf

/-- C7 witness at a concrete input: top-N 1, first entry of size 5, a
later candidate of equal size 5 leaves the heap unchanged. -/
theorem equal_size_candidate_discarded_witness :
    ((applyAdds (newCollector 1 false) [⟨"a", 5, ""⟩]).add "b" 5 "").topFiles
      = (applyAdds (newCollector 1 false) [⟨"a", 5, ""⟩]).topFiles ∧
    ∀ f ∈ (applyAdds (newCollector 1 false) [⟨"a", 5, ""⟩]).topFiles,
      keyAt (applyAdds (newCollector 1 false) [⟨"a", 5, ""⟩]).topFiles 0 ≤ f.size :=
  equal_size_candidate_discarded 1 [⟨"a", 5, ""⟩] "b" 5 "" (by decide) (by decide)
    (by decide)

/-! ### Claim theorems: C8, C9, C10 -/

/-- C8: a path whose suffix matches an entry of the exclude set is never
admitted, even when its suffix also matches an entry of the include set:
both the shouldIncludeByExtension helper and the inline run.go filter
refuse it. -/
theorem exclude_wins_over_include (path : String) (incl excl : List String)
    (hx : ∃ ext ∈ excl, goHasSuffix path ext = true) :
    shouldIncludeByExtension path incl excl = false ∧
    runGoExtAdmit path incl excl = false := by
  obtain ⟨ext, hmem, hsuf⟩ := hx
  have hany : excl.any (fun e => goHasSuffix path e) = true :=
    List.any_eq_true.mpr ⟨ext, hmem, hsuf⟩
  constructor
  · unfold shouldIncludeByExtension
    rw [if_pos hany]
  · unfold runGoExtAdmit
    by_cases hincl : incl ≠ [] ∧ ¬ incl.any (fun e => goHasSuffix path e) = true
    · rw [if_pos hincl]
    · rw [if_neg hincl, if_pos hany]

/-- C8 witness at a concrete input: the path matches both the include
suffix .go and the exclude suffix _test.go, and is excluded. -/
theorem exclude_wins_over_include_witness :
    shouldIncludeByExtension "a_test.go" [".go"] ["_test.go"] = false ∧
    runGoExtAdmit "a_test.go" [".go"] ["_test.go"] = false :=
  exclude_wins_over_include "a_test.go" [".go"] ["_test.go"]
    ⟨"_test.go", by decide, by decide⟩

/-- C9: an empty Options.Path is replaced by the current directory
before root validation, so Run behaves identically to a run on ".",
for every environment and every other option; the validated root is the
same in both runs. -/
theorem empty_path_like_dot (opt : Options) (env : Env) :
    runModel { opt with path := "" } env = runModel { opt with path := "." } env ∧
    runRoot { opt with path := "" } = runRoot { opt with path := "." } :=
  ⟨rfl, rfl⟩

/-- C10: in file mode, an admitted file whose final path element has no
dot gets the empty-string extension key: its count and size land on the
"" entry of the category map and it still bumps the file count and the
byte total. -/
theorem no_dot_under_empty_key (c : Collector) (path : String) (size : Int)
    (hnodot : ∀ ch ∈ path.data.reverse.takeWhile (fun x => x != '/'), ch ≠ '.') :
    goExt path = "" ∧
    mapGet ((c.add path size (goExt path)).extStats) ""
      = ⟨(mapGet c.extStats "").count + 1, (mapGet c.extStats "").size + size⟩ ∧
    (c.add path size (goExt path)).fileCount = c.fileCount + 1 ∧
    (c.add path size (goExt path)).totalBytes = c.totalBytes + size := by
  have hext : goExt path = "" := by
    unfold goExt
    have key : ∀ (l acc : List Char),
        (∀ ch ∈ l.takeWhile (fun x => x != '/'), ch ≠ '.') → extRevAux l acc = "" := by
      intro l
      induction l with
      | nil => intro acc _; rfl
      | cons ch rest ih =>
        intro acc h
        unfold extRevAux
        by_cases hc : ch = '/'
        · rw [if_pos hc]
        · have hmem : ch ∈ (ch :: rest).takeWhile (fun x => x != '/') := by
            rw [List.takeWhile_cons, if_pos (by simp [hc])]
            exact List.mem_cons_self _ _
          have hdot : ch ≠ '.' := h ch hmem
          rw [if_neg hc, if_neg hdot]
          refine ih _ (fun x hx => h x ?_)
          rw [List.takeWhile_cons, if_pos (by simp [hc])]
          exact List.mem_cons_of_mem _ hx
    exact key _ [] hnodot
  rw [hext]
  have hne : ("" : String) ≠ "DIR:" := by decide
  rw [add_file_eq c path size "" hne]
  exact ⟨rfl, mapGet_mapSet_self _ _ _, rfl, rfl⟩

/-- C10 witness at a concrete input: a Makefile in a dotted directory
still has no extension and lands on the empty key. -/
theorem no_dot_under_empty_key_witness :
    goExt "sub/Makefile" = "" ∧
    mapGet (((newCollector 5 false).add "sub/Makefile" 7 (goExt "sub/Makefile")).extStats) ""
      = ⟨(mapGet (newCollector 5 false).extStats "").count + 1,
         (mapGet (newCollector 5 false).extStats "").size + 7⟩ ∧
    ((newCollector 5 false).add "sub/Makefile" 7 (goExt "sub/Makefile")).fileCount
      = (newCollector 5 false).fileCount + 1 ∧
    ((newCollector 5 false).add "sub/Makefile" 7 (goExt "sub/Makefile")).totalBytes
      = (newCollector 5 false).totalBytes + 7 :=
  no_dot_under_empty_key (newCollector 5 false) "sub/Makefile" 7 (by decide)

/-! ### Claim theorem: C5 -/

lemma walkCallback_fst_canceled (ps : WalkParams) (c : Collector) (e : WalkEntry)
    (h1 : e.accessErr = false) (h2 : e.ctxDone = true) :
    (walkCallback ps c e).1 = CbOut.canceled := by
  unfold walkCallback
  rw [if_neg (by simp [h1]), if_pos h2]

lemma walkCallback_fst_ne (ps : WalkParams) (c : Collector) (e : WalkEntry)
    (h : ¬(e.accessErr = false ∧ e.ctxDone = true)) :
    (walkCallback ps c e).1 ≠ CbOut.canceled := by
  unfold walkCallback
  by_cases ha : e.accessErr = true
  · rw [if_pos ha]
    simp
  · have hd : ¬ e.ctxDone = true := by
      intro hdt
      exact h ⟨by simpa using ha, hdt⟩
    rw [if_neg ha, if_neg hd]
    split
    · split <;> simp
    · split
      · split <;> simp
      · split
        · simp
        · split
          · simp
          · split
            · simp
            · split
              · simp
              · split
                · simp
                · split
                  · simp
                  · simp

lemma walkFold_error_iff (ps : WalkParams) (entries : List WalkEntry) :
    ∀ c : Collector,
      ((∃ err, walkFold ps c entries = Except.error err) ↔ cancelObserved entries = true) := by
  induction entries with
  | nil =>
    intro c
    simp [walkFold, cancelObserved]
  | cons e rest ih =>
    intro c
    show (∃ err, (match walkCallback ps c e with
      | (.canceled, _) => Except.error RunError.canceled
      | (_, c2) => walkFold ps c2 rest) = Except.error err) ↔ _
    rcases hcb : walkCallback ps c e with ⟨r, c2⟩
    by_cases hc : e.accessErr = false ∧ e.ctxDone = true
    · have hr : r = CbOut.canceled := by
        have := walkCallback_fst_canceled ps c e hc.1 hc.2
        rw [hcb] at this
        exact this
      subst hr
      show (∃ err, Except.error RunError.canceled = Except.error err) ↔ _
      unfold cancelObserved
      simp [hc.1, hc.2]
    · have hr : r ≠ CbOut.canceled := by
        have := walkCallback_fst_ne ps c e hc
        rw [hcb] at this
        exact this
      have hmatch : (match (r, c2) with
          | (CbOut.canceled, _) => Except.error RunError.canceled
          | (_, c3) => walkFold ps c3 rest) = walkFold ps c2 rest := by
        cases r with
        | canceled => exact absurd rfl hr
        | next => rfl
        | skipDir => rfl
      rw [hmatch]
      unfold cancelObserved
      have hobs : (!e.accessErr && e.ctxDone) = false := by
        by_cases ha : e.accessErr = true
        · simp [ha]
        · have h1 : e.accessErr = false := by simpa using ha
          have h2 : e.ctxDone = false := by
            by_cases hd : e.ctxDone = true
            · exact absurd ⟨h1, hd⟩ hc
            · simpa using hd
          simp [h1, h2]
      rw [hobs]
      simp only [Bool.false_or]
      exact ih c2

/-- C5: the Run model returns an error exactly when the root stat fails,
the root is not a directory, some exclusion pattern does not compile, or
cancellation is observed during the walk; and a per-entry metadata
(d.Info) failure at an entry that reaches the stat step never produces
an error: the callback just bumps the error counter and continues. -/
theorem run_error_taxonomy (opt : Options) (env : Env) :
    ((∃ err, runModel opt env = Except.error err) ↔
      (env.stat (runRoot opt) = none ∨
       env.stat (runRoot opt) = some false ∨
       opt.excludes.any (fun p => ¬ p.valid) = true ∨
       cancelObserved (env.entries (runRoot opt)) = true)) ∧
    (∀ (ps : WalkParams) (c : Collector) (e : WalkEntry),
      e.accessErr = false → e.ctxDone = false → e.isDir = false → e.isRegular = true →
      e.infoErr = true →
      ¬(ps.depth > 0 ∧ (calculateDepth e.path ps.root : Int) > ps.depth) →
      ps.excludeRegexes.any (fun re => re.isMatch (toSlash e.path)) = false →
      walkCallback ps c e = (CbOut.next, c.addError)) := by
  constructor
  · unfold runModel
    rcases hstat : env.stat (runRoot opt) with _ | isdir
    · simp [hstat]
    · rcases isdir with _ | _
      · -- not a directory
        simp [hstat]
      · -- root is fine
        simp only [hstat]
        rw [if_neg (by simp)]
        by_cases hpat : opt.excludes.any (fun p => ¬ p.valid) = true
        · rw [if_pos hpat]
          constructor
          · intro _
            right
            right
            left
            exact hpat
          · intro _
            exact ⟨RunError.badPattern, rfl⟩
        · rw [if_neg hpat]
          have hiff := walkFold_error_iff
            { root := runRoot opt
              depth := opt.depth
              minSize := opt.minSize
              dirsMode := opt.dirsMode
              excludeRegexes := opt.excludes
              extInclude := (parseExtensions opt.extensions).1
              extExclude := (parseExtensions opt.extensions).2 }
            (env.entries (runRoot opt)) (newCollector (effTopN opt.topN) opt.dirsMode)
          rcases hw : walkFold
            { root := runRoot opt
              depth := opt.depth
              minSize := opt.minSize
              dirsMode := opt.dirsMode
              excludeRegexes := opt.excludes
              extInclude := (parseExtensions opt.extensions).1
              extExclude := (parseExtensions opt.extensions).2 }
            (newCollector (effTopN opt.topN) opt.dirsMode) (env.entries (runRoot opt))
            with err | cfin
          · rw [hw] at hiff
            have hcan : cancelObserved (env.entries (runRoot opt)) = true :=
              hiff.mp ⟨err, rfl⟩
            simp [hstat, hpat, hcan, hw]
          · rw [hw] at hiff
            have hcan : cancelObserved (env.entries (runRoot opt)) = false := by
              by_cases hcv : cancelObserved (env.entries (runRoot opt)) = true
              · obtain ⟨err2, herr2⟩ := hiff.mpr hcv
                exact absurd herr2 (by simp)
              · simpa using hcv
            simp only [hstat, hw]
            constructor
            · rintro ⟨err2, herr2⟩
              exact absurd herr2 (by simp)
            · rintro (hbad | hbad | hbad | hbad)
              · exact absurd hbad (by simp)
              · exact absurd hbad (by simp)
              · exact absurd hbad hpat
              · rw [hcan] at hbad
                exact absurd hbad (by simp)
  · intro ps c e h1 h2 h3 h4 h5 h6 h7
    unfold walkCallback
    rw [if_neg (by simp [h1]), if_neg (by simp [h2]), if_neg h6,
      if_neg (by simp [h7]), if_neg (by simp [h3]), if_neg (by simp [h4]),
      if_pos h5]

/-- C5 witness at a concrete input: an entry whose metadata read fails is
recorded in the error counter and the callback continues with next. -/
theorem run_error_taxonomy_witness :
    walkCallback
      { root := "r", depth := 0, minSize := 0, dirsMode := false,
        excludeRegexes := [], extInclude := [], extExclude := [] }
      (newCollector 20 false)
      { path := "r/f", isDir := false, isRegular := true, accessErr := false,
        ctxDone := false, infoErr := true, size := 0 }
      = (CbOut.next, (newCollector 20 false).addError) :=
  (run_error_taxonomy
    { path := "r", extensions := [], excludes := [], minSize := 0, topN := 20,
      depth := 0, dirsMode := false }
    { stat := fun _ => some true, entries := fun _ => [] }).2
    { root := "r", depth := 0, minSize := 0, dirsMode := false,
      excludeRegexes := [], extInclude := [], extExclude := [] }
    (newCollector 20 false)
    { path := "r/f", isDir := false, isRegular := true, accessErr := false,
      ctxDone := false, infoErr := true, size := 0 }
    rfl rfl rfl rfl rfl (by decide) rfl

end Dirstat
